import Mathlib

/-!
Verification development for the declarative workflow (DAG) execution engine
in `workflow_core` (schema.py, runtime/simple_executor.py, runtime/node_handlers.py).

The Python code is shallowly embedded: JSON-like Python values become the
inductive `PyValue`; Python dicts become insertion-ordered association lists;
raised exceptions become `Except PyErr`; `random` draws and the delegated
`eval` expression evaluator (an external component per the spec) become an
explicit `Oracle` parameter.  Wall-clock fields (`start_time`, `end_time`,
`total_duration`, `execution_time`) and process identifiers
(`workflow_id`, `execution_id`, uuid) are environment data and are not
modelled; no claim mentions them.
-/

/-- JSON-like Python values flowing through the engine (node configs, node
outputs, workflow variables).  Floats do not occur in any claim and are
omitted.  `dict` is an insertion-ordered association list, mirroring Python
dict semantics for the string keys used by the engine. -/
inductive PyValue where
  | none
  | bool (b : Bool)
  | int (n : Int)
  | str (s : String)
  | list (xs : List PyValue)
  | dict (kvs : List (String × PyValue))
deriving Repr

/-- Python exceptions as observed by the engine: `ValueError` (used by the
variable resolver and `topological_sort`) is distinguished from every other
exception class because `_resolve_variables` re-raises the former and
swallows the latter. -/
inductive PyErr where
  | valueError (msg : String)
  | otherError (msg : String)
deriving Repr

/-- Python truthiness (`bool(v)`) for the embedded values. -/
def pyTruthy : PyValue → Bool
  | .none => false
  | .bool b => b
  | .int n => n ≠ 0
  | .str s => s ≠ ""
  | .list xs => !xs.isEmpty
  | .dict kvs => !kvs.isEmpty

/-- Whitespace characters removed by Python `str.strip()`. -/
def isPySpace (c : Char) : Bool :=
  c = ' ' ∨ c = '\t' ∨ c = '\n' ∨ c = '\r' ∨ c = '\x0b' ∨ c = '\x0c'

/-- `str.strip()` on a character list. -/
def stripChars (cs : List Char) : List Char :=
  ((cs.dropWhile isPySpace).reverse.dropWhile isPySpace).reverse

/-- Python `str.strip()`. -/
def pyStrip (s : String) : String := ⟨stripChars s.data⟩

/-- Python `str.upper()` (ASCII case mapping suffices for the engine). -/
def pyUpper (s : String) : String := ⟨s.data.map Char.toUpper⟩

/-- Python `str.lower()`. -/
def pyLower (s : String) : String := ⟨s.data.map Char.toLower⟩

/-- Split a character list at every occurrence of `sep`
(Python `str.split(sep)`: no collapsing, `"".split(sep) = [""]`). -/
def splitChars (sep : Char) : List Char → List (List Char)
  | [] => [[]]
  | c :: cs =>
    if c = sep then [] :: splitChars sep cs
    else
      match splitChars sep cs with
      | [] => [[c]]
      | p :: ps => (c :: p) :: ps

/-- Python `s.split(sep)` for a one-character separator. -/
def pySplit (sep : Char) (s : String) : List String :=
  (splitChars sep s.data).map List.asString

/-- Python `s.split(sep, 1)` for a one-character separator: `none` when the
separator does not occur, otherwise the parts before and after its first
occurrence. -/
def pySplitOnce (sep : Char) (s : String) : Option (String × String) :=
  if s.data.contains sep then
    some (⟨s.data.takeWhile (· ≠ sep)⟩, ⟨(s.data.dropWhile (· ≠ sep)).tail⟩)
  else
    Option.none

/-- Whether `pat` is a prefix of `cs` (explicit Boolean prefix test). -/
def listStartsWith : List Char → List Char → Bool
  | [], _ => true
  | _ :: _, [] => false
  | p :: ps, c :: cs => p = c && listStartsWith ps cs

/-- Python `s.replace("", new)`: `new` is inserted before every character and
after the last one. -/
def replaceEmptyOld (new : List Char) : List Char → List Char
  | [] => new
  | c :: cs => new ++ c :: replaceEmptyOld new cs

/-- Python `s.replace(old, new)` for nonempty `old`: leftmost,
non-overlapping occurrences (fuelled by the string length). -/
def strReplaceNE (old new : List Char) : Nat → List Char → List Char
  | 0, s => s
  | _ + 1, [] => []
  | fuel + 1, c :: cs =>
    if listStartsWith old (c :: cs) then
      new ++ strReplaceNE old new fuel ((c :: cs).drop old.length)
    else
      c :: strReplaceNE old new fuel cs

/-- Python `str.replace(old, new)`. -/
def pyReplace (s old new : String) : String :=
  match old.data with
  | [] => ⟨replaceEmptyOld new.data s.data⟩
  | _ :: _ => ⟨strReplaceNE old.data new.data s.data.length s.data⟩

/-- Escape a character for Python `repr` of a string (backslash and the
quote in use; control-character escapes are outside the engine's scope). -/
def reprEscape (quote : Char) (c : Char) : List Char :=
  if c = '\\' then ['\\', '\\']
  else if c = quote then ['\\', quote]
  else [c]

/-- Python `repr` of a string: single quotes, switching to double quotes
when the content contains a single quote but no double quote. -/
def strRepr (s : String) : String :=
  let q : Char := if s.data.contains '\x27' && !s.data.contains '"' then '"' else '\x27'
  ⟨q :: (s.data.flatMap (reprEscape q)) ++ [q]⟩

mutual
/-- Python `repr` of an embedded value (`str()` of a dict or list uses the
`repr` of its elements). -/
def pyRepr : PyValue → String
  | .none => "None"
  | .bool true => "True"
  | .bool false => "False"
  | .int n => toString n
  | .str s => strRepr s
  | .list xs => "[" ++ String.intercalate ", " (pyReprList xs) ++ "]"
  | .dict kvs => "\x7b" ++ String.intercalate ", " (pyReprKVs kvs) ++ "\x7d"

/-- `repr` of each element of a list. -/
def pyReprList : List PyValue → List String
  | [] => []
  | x :: xs => pyRepr x :: pyReprList xs

/-- `repr` of each `key: value` entry of a dict. -/
def pyReprKVs : List (String × PyValue) → List String
  | [] => []
  | (k, v) :: kvs => (strRepr k ++ ": " ++ pyRepr v) :: pyReprKVs kvs
end

/-- Python `str(v)`: the string itself for strings, `repr` otherwise. -/
def pyStr : PyValue → String
  | .str s => s
  | v => pyRepr v

/-- Escape a character for `json.dumps` of a string. -/
def jsonEscape (c : Char) : List Char :=
  if c = '"' then ['\\', '"']
  else if c = '\\' then ['\\', '\\']
  else if c = '\n' then ['\\', 'n']
  else if c = '\t' then ['\\', 't']
  else if c = '\r' then ['\\', 'r']
  else [c]

mutual
/-- `json.dumps(v)` with the default separators (used by the resolver when a
non-string value is interpolated into surrounding literal text). -/
def jsonDumps : PyValue → String
  | .none => "null"
  | .bool true => "true"
  | .bool false => "false"
  | .int n => toString n
  | .str s => ⟨'"' :: s.data.flatMap jsonEscape ++ ['"']⟩
  | .list xs => "[" ++ String.intercalate ", " (jsonDumpsList xs) ++ "]"
  | .dict kvs => "\x7b" ++ String.intercalate ", " (jsonDumpsKVs kvs) ++ "\x7d"

/-- `json.dumps` of each element of a list. -/
def jsonDumpsList : List PyValue → List String
  | [] => []
  | x :: xs => jsonDumps x :: jsonDumpsList xs

/-- `json.dumps` of each `"key": value` entry of a dict. -/
def jsonDumpsKVs : List (String × PyValue) → List String
  | [] => []
  | (k, v) :: kvs => (⟨'"' :: k.data.flatMap jsonEscape ++ ['"']⟩ ++ ": " ++ jsonDumps v) :: jsonDumpsKVs kvs
end

/-- Python dict update `d[k] = v`: replace the value at an existing key in
place, otherwise append the new entry (insertion order preserved). -/
def dictSet (d : List (String × PyValue)) (k : String) (v : PyValue) : List (String × PyValue) :=
  if d.any (·.1 = k) then d.map (fun e => if e.1 = k then (k, v) else e)
  else d ++ [(k, v)]

/-- `{**a, **b}`: merge with the right operand winning. -/
def dictMerge (a b : List (String × PyValue)) : List (String × PyValue) :=
  b.foldl (fun acc e => dictSet acc e.1 e.2) a

/-- Python `d.get(k, default)` on an association list. -/
def dictGet (d : List (String × PyValue)) (k : String) (dflt : PyValue) : PyValue :=
  match d.lookup k with
  | some v => v
  | Option.none => dflt

/-- Python `str.startswith(pre)` on the character data (the library
`String.startsWith` recurses well-foundedly over byte positions and does not
evaluate definitionally). -/
def pyStartsWith (s pre : String) : Bool := listStartsWith pre.data s.data

/-- Quote characters recognised by the filter-argument regexes. -/
def isQuote (c : Char) : Bool := c = '"' || c = '\x27'

/-- Argument parser for the `replace(old, new)` filter: the regex
`replace\(["\x27]([^"\x27]*)["\x27],\s*["\x27]([^"\x27]*)["\x27]` applied
after the literal `replace(` (trailing characters are unconstrained). -/
def parseReplaceArgs (cs : List Char) : Option (String × String) :=
  match cs with
  | q1 :: rest =>
    if isQuote q1 then
      let old := rest.takeWhile (fun c => !isQuote c)
      match rest.dropWhile (fun c => !isQuote c) with
      | q2 :: ',' :: rest2 =>
        if isQuote q2 then
          match rest2.dropWhile isPySpace with
          | q3 :: rest4 =>
            if isQuote q3 then
              let new := rest4.takeWhile (fun c => !isQuote c)
              match rest4.dropWhile (fun c => !isQuote c) with
              | q4 :: _ => if isQuote q4 then some (⟨old⟩, ⟨new⟩) else Option.none
              | [] => Option.none
            else Option.none
          | [] => Option.none
        else Option.none
      | _ => Option.none
    else Option.none
  | [] => Option.none

/-- Backtracking search for the capture group of
`default\(["\x27]?([^"\x27]+)["\x27]?\)`: the greedy group gives characters
back until the remainder matches an optional quote followed by `)`. -/
def defaultGroupGo (R S : List Char) : Nat → Option String
  | 0 => Option.none
  | k + 1 =>
    let g := R.take (k + 1)
    let rem := R.drop (k + 1) ++ S
    let rem2 := match rem with
      | c :: cs => if isQuote c then cs else rem
      | [] => ([] : List Char)
    match rem2 with
    | ')' :: _ => some ⟨g⟩
    | _ => defaultGroupGo R S k

/-- Argument parser for the `default(x)` filter (regex
`default\(["\x27]?([^"\x27]+)["\x27]?\)` matched at the start of the filter
name). -/
def parseDefaultArg (fn : String) : Option String :=
  if pyStartsWith fn "default(" then
    let rest0 := fn.data.drop 8
    let rest1 := match rest0 with
      | c :: cs => if isQuote c then cs else rest0
      | [] => ([] : List Char)
    let R := rest1.takeWhile (fun c => !isQuote c)
    let S := rest1.dropWhile (fun c => !isQuote c)
    defaultGroupGo R S R.length
  else Option.none

/-- `True` exactly on `PyValue.none` (Python `value is None`). -/
def PyValue.isNone : PyValue → Bool
  | .none => true
  | _ => false

/-- `apply_filter` from simple_executor.py: one Jinja2-style filter applied
to a value.  Unknown filter names return the value unchanged.  `first`/`last`
on a nonempty dict raises `KeyError` (`value[0]` / `value[-1]` on a dict),
modelled as `PyErr.otherError`; every other branch is total. -/
def apply_filter (value : PyValue) (filterName : String) : Except PyErr PyValue :=
  let fn := pyStrip filterName
  if fn = "length" || fn = "count" then
    .ok (match value with
      | .none => .int 0
      | .str s => .int s.length
      | .list xs => .int xs.length
      | .dict kvs => .int kvs.length
      | _ => .int 0)       -- len() raises TypeError on numbers; the bare except returns 0
  else if fn = "upper" then
    .ok (.str (match value with | .none => "" | v => pyUpper (pyStr v)))
  else if fn = "lower" then
    .ok (.str (match value with | .none => "" | v => pyLower (pyStr v)))
  else if fn = "trim" || fn = "strip" then
    .ok (.str (match value with | .none => "" | v => pyStrip (pyStr v)))
  else if fn = "first" then
    match value with
    | .str s => .ok (match s.data with | [] => .none | c :: _ => .str ⟨[c]⟩)
    | .list xs => .ok (match xs with | [] => .none | x :: _ => x)
    | .dict kvs =>
      match kvs with
      | [] => .ok .none
      | _ :: _ => .error (.otherError "0")   -- value[0] on a dict: KeyError
    | _ => .ok .none
  else if fn = "last" then
    match value with
    | .str s => .ok (match s.data.getLast? with | some c => .str ⟨[c]⟩ | Option.none => .none)
    | .list xs => .ok (match xs.getLast? with | some x => x | Option.none => .none)
    | .dict kvs =>
      match kvs with
      | [] => .ok .none
      | _ :: _ => .error (.otherError "-1")  -- value[-1] on a dict: KeyError
    | _ => .ok .none
  else if pyStartsWith fn "replace(" then
    match parseReplaceArgs (fn.data.drop 8) with
    | some (old, new) =>
      .ok (.str (match value with | .none => "" | v => pyReplace (pyStr v) old new))
    | Option.none =>
      .ok (.str (match value with | .none => "" | v => pyStr v))
  else if fn = "default" || pyStartsWith fn "default(" then
    if (match value with | .none => true | .str s => s = "" | _ => false) then
      match parseDefaultArg fn with
      | some d => .ok (.str d)
      | Option.none => .ok (.str "")
    else .ok value
  else
    .ok value

/-- Mutable per-run state of simple_executor.py (`ExecutionContext` in
schema.py): workflow globals merged with caller overrides, and the raw
outputs of finished nodes (the `metadata`, `workflow_id` and `execution_id`
fields carry no engine behaviour and are not modelled). -/
structure ExecutionContext where
  vars : List (String × PyValue)         -- source field `variables` (a Lean keyword)
  node_results : List (String × PyValue)
deriving Repr

/-- One step of dotted-path access: dict-style `value.get(part)` for dicts,
`getattr(value, part, None)` otherwise (the embedded JSON-like values carry
no Python attributes, so attribute access yields the `None` default). -/
def pyGetattr (v : PyValue) (part : String) : PyValue :=
  match v with
  | .dict kvs => dictGet kvs part .none
  | _ => .none

/-- The `for part in parts[1:]` walk of `resolve_variable_path`: the Boolean
is `true` when the walk hit a `None` value before consuming every segment
(the early `unresolved_vars.append` return in the source). -/
def walkParts : PyValue → List String → PyValue × Bool
  | .none, _ :: _ => (.none, true)
  | v, [] => (v, false)
  | v, p :: ps => walkParts (pyGetattr v p) ps

/-- The walk plus the trailing `value is None and len(parts) > 1` check of
`resolve_variable_path`, accumulating the unresolved path names. -/
def lookupWalk (varPath : String) (v0 : PyValue) (rest : List String) (unres : List String) :
    PyValue × List String :=
  match walkParts v0 rest with
  | (v, true) => (v, unres ++ [varPath])
  | (v, false) =>
    if v.isNone && !rest.isEmpty then (v, unres ++ [varPath])
    else (v, unres)

/-- The dot-path branch of `resolve_variable_path`: node results first, then
workflow variables, otherwise the path is recorded as unresolved. -/
def resolveBasePath (ctx : ExecutionContext) (varPath : String) (unres : List String) :
    PyValue × List String :=
  match pySplit '.' varPath with
  | [] => (.none, unres ++ [varPath])   -- unreachable: str.split never returns an empty list
  | p0 :: rest =>
    match ctx.node_results.lookup p0 with
    | some v => lookupWalk varPath v rest unres
    | Option.none =>
      match ctx.vars.lookup p0 with
      | some v => lookupWalk varPath v rest unres
      | Option.none => (.none, unres ++ [varPath])

/-- `resolve_variable_path` from simple_executor.py: an optional pipe splits
the reference into a base path and a chain of filters applied left to right
(the recursive call on the pipe-free base path is inlined as
`resolveBasePath`). -/
def resolve_variable_path (ctx : ExecutionContext) (varPath : String) (unres : List String) :
    Except PyErr (PyValue × List String) :=
  match pySplitOnce '|' varPath with
  | some (p0, p1) =>
    let basePath := pyStrip p0
    let filterExpr := pyStrip p1
    let r0 := resolveBasePath ctx basePath unres
    match (pySplit '|' filterExpr).foldlM apply_filter r0.1 with
    | .ok v => .ok (v, r0.2)
    | .error e => .error e
  | Option.none => .ok (resolveBasePath ctx varPath unres)

/-- One attempt of the regex `\x7b\x7b([^\x7d]+)\x7d\x7d` at the head of the
character list: on success, the captured group and the characters after the
match. -/
def matchAt : List Char → Option (List Char × List Char)
  | '\x7b' :: '\x7b' :: cs =>
    let run := cs.takeWhile (· ≠ '\x7d')
    match cs.dropWhile (· ≠ '\x7d') with
    | '\x7d' :: '\x7d' :: rest => if run.isEmpty then Option.none else some (run, rest)
    | _ => Option.none
  | _ => Option.none

/-- Whether the template regex matches anywhere in the character list. -/
def hasTemplate : List Char → Bool
  | [] => false
  | c :: cs => (matchAt (c :: cs)).isSome || hasTemplate cs

/-- The `replace_var` substitution of `re.sub` in `resolve_value`, fuelled:
matches are replaced left to right; an unresolved reference keeps its
template text; non-string values are serialised with `json.dumps`.  Every
step consumes at least one character, so the fuel `cs.length` supplied by
`substLoop` is never exhausted and the zero-fuel branch (which can only be
reached with an empty remainder) agrees with the empty case. -/
def substLoopF (ctx : ExecutionContext) :
    Nat → List Char → List String → Except PyErr (List Char × List String)
  | 0, _, unres => .ok ([], unres)
  | _ + 1, [], unres => .ok ([], unres)
  | fuel + 1, c :: cs2, unres =>
    match matchAt (c :: cs2) with
    | some (run, rest) =>
      match resolve_variable_path ctx (pyStrip ⟨run⟩) unres with
      | .error e => .error e
      | .ok (v, unres) =>
        match substLoopF ctx fuel rest unres with
        | .error e => .error e
        | .ok (tail, unres) =>
          let piece : List Char :=
            match v with
            | .none => '\x7b' :: '\x7b' :: (run ++ ['\x7d', '\x7d'])
            | .str s => s.data
            | v => (jsonDumps v).data
          .ok (piece ++ tail, unres)
    | Option.none =>
      match substLoopF ctx fuel cs2 unres with
      | .error e => .error e
      | .ok (tail, unres) => .ok (c :: tail, unres)

/-- The `re.sub` pass over a whole string. -/
def substLoop (ctx : ExecutionContext) (cs : List Char) (unres : List String) :
    Except PyErr (List Char × List String) :=
  substLoopF ctx cs.length cs unres

/-- The string case of `resolve_value`: no match returns the string
unchanged; a single match spanning the whole string returns the resolved
value with its native type (or the template text when it resolved to
`None`); otherwise in-place textual substitution. -/
def resolveString (ctx : ExecutionContext) (s : String) (unres : List String) :
    Except PyErr (PyValue × List String) :=
  match matchAt s.data with
  | some (run, []) =>
    match resolve_variable_path ctx (pyStrip ⟨run⟩) unres with
    | .error e => .error e
    | .ok (v, unres) =>
      .ok ((match v with | .none => .str s | v => v), unres)
  | _ =>
    if hasTemplate s.data then
      match substLoop ctx s.data unres with
      | .error e => .error e
      | .ok (out, unres) => .ok (.str ⟨out⟩, unres)
    else .ok (.str s, unres)

mutual
/-- `resolve_value` from `_resolve_variables`: recursive resolution of every
`\x7b\x7bpath\x7d\x7d` reference inside a configuration value. -/
def resolveValue (ctx : ExecutionContext) : PyValue → List String → Except PyErr (PyValue × List String)
  | .str s, unres => resolveString ctx s unres
  | .dict kvs, unres =>
    match resolveEntries ctx kvs unres with
    | .ok (kvs2, unres) => .ok (.dict kvs2, unres)
    | .error e => .error e
  | .list xs, unres =>
    match resolveItems ctx xs unres with
    | .ok (xs2, unres) => .ok (.list xs2, unres)
    | .error e => .error e
  | v, unres => .ok (v, unres)

/-- `resolve_value` over the entries of a dict (insertion order). -/
def resolveEntries (ctx : ExecutionContext) : List (String × PyValue) → List String →
    Except PyErr (List (String × PyValue) × List String)
  | [], unres => .ok ([], unres)
  | (k, v) :: kvs, unres =>
    match resolveValue ctx v unres with
    | .error e => .error e
    | .ok (v2, unres) =>
      match resolveEntries ctx kvs unres with
      | .error e => .error e
      | .ok (kvs2, unres) => .ok ((k, v2) :: kvs2, unres)

/-- `resolve_value` over the items of a list. -/
def resolveItems (ctx : ExecutionContext) : List PyValue → List String →
    Except PyErr (List PyValue × List String)
  | [], unres => .ok ([], unres)
  | x :: xs, unres =>
    match resolveValue ctx x unres with
    | .error e => .error e
    | .ok (x2, unres) =>
      match resolveItems ctx xs unres with
      | .error e => .error e
      | .ok (xs2, unres) => .ok ((x2 :: xs2), unres)
end

/-- The aggregated error text of `_resolve_variables`. -/
def unresolvedMessage (uniq : List String) : String :=
  "Cannot resolve " ++ toString uniq.length ++ " variable(s): " ++ String.intercalate ", " uniq

/-- `_resolve_variables` from simple_executor.py: resolve the whole node
configuration; raise a single `ValueError` naming the unresolved paths if
any were recorded; any other exception raised during resolution is swallowed
and the original configuration is returned.  Python renders the batch via
`list(set(..))`, whose iteration order is implementation-defined; the
embedding uses a deterministic deduplication (`dedup`), and every property
proved about the message is order-insensitive. -/
def resolve_variables (ctx : ExecutionContext) (config : List (String × PyValue)) :
    Except PyErr (List (String × PyValue)) :=
  match resolveEntries ctx config [] with
  | .ok (rc, unres) =>
    if unres.isEmpty then .ok rc
    else .error (.valueError (unresolvedMessage unres.dedup))
  | .error (.valueError m) => .error (.valueError m)  -- `except ValueError: raise`
  | .error (.otherError _) => .ok config               -- generic except: return the original config

/-- A workflow step (`WorkflowNode` in schema.py).  `description`, `retry`
and `timeout` are declared by the schema but never consulted by the executor
(spec §9) and are omitted; `id`, `type`, `config`, `depends_on`,
`condition` and `on_error` drive every behaviour under verification. -/
structure WorkflowNode where
  id : String
  type : String := ""
  config : List (String × PyValue) := []
  depends_on : List String := []
  condition : Option String := Option.none
  on_error : Option String := Option.none
deriving Repr

/-- The whole workflow document (`WorkflowDefinition` in schema.py).
`metadata` is informational (only its `name` feeds result bookkeeping, which
is unmodelled), and `start_node`/`end_nodes`/`environment` are never read by
the executor, so the embedding keeps the behaviour-carrying fields:
the node list and the global variables (source field `variables`). -/
structure WorkflowDefinition where
  nodes : List WorkflowNode
  vars : List (String × PyValue) := []
deriving Repr

/-- `WorkflowDefinition.get_node`: first node with the given id. -/
def WorkflowDefinition.get_node (w : WorkflowDefinition) (nodeId : String) : Option WorkflowNode :=
  w.nodes.find? (fun n => n.id = nodeId)

/-- `WorkflowDefinition.validate_dependencies`: one error per `depends_on`
reference to a nonexistent node id. -/
def WorkflowDefinition.validate_dependencies (w : WorkflowDefinition) : List String :=
  let node_ids := w.nodes.map (·.id)
  w.nodes.foldl
    (fun errs n =>
      errs ++ (n.depends_on.filter (fun d => !node_ids.contains d)).map
        (fun d => "Node \x27" ++ n.id ++ "\x27 depends on non-existent node \x27" ++ d ++ "\x27"))
    []

/-- The initial in-degree dict of `topological_sort`
(`{node.id: len(node.depends_on) for node in self.nodes}`; on duplicate ids
the later entry overwrites the earlier, as in Python). -/
def initInDegree (nodes : List WorkflowNode) : String → Int :=
  nodes.foldl (fun m n => fun k => if k = n.id then (n.depends_on.length : Int) else m k)
    (fun _ => 0)

/-- The `for node in self.nodes` body run after popping `current`: decrement
the in-degree of every node listing `current.id` among its dependencies
(once per node, even when the id is listed twice) and enqueue those that
reach zero. -/
def kahnStep (nodes : List WorkflowNode) (current : WorkflowNode)
    (st : (String → Int) × List WorkflowNode) : (String → Int) × List WorkflowNode :=
  nodes.foldl
    (fun st n =>
      if n.depends_on.contains current.id then
        let indeg2 : String → Int := fun k => if k = n.id then st.1 n.id - 1 else st.1 k
        if indeg2 n.id = 0 then (indeg2, st.2 ++ [n]) else (indeg2, st.2)
      else st)
    st

/-- The `while queue` loop of `topological_sort`, fuelled.  The fuel
`2 * nodes.length + 1` passed by `topological_sort` strictly exceeds the
number of pops the Python loop can perform (every enqueue is either an
initial seed or the unique moment an in-degree counter reaches zero), so the
fuelled loop always drains the queue exactly as the source does. -/
def kahnLoop (nodes : List WorkflowNode) :
    Nat → (String → Int) → List WorkflowNode → List WorkflowNode → List WorkflowNode
  | 0, _, _, result => result
  | fuel + 1, indeg, queue, result =>
    match queue with
    | [] => result
    | current :: rest =>
      let st := kahnStep nodes current (indeg, rest)
      kahnLoop nodes fuel st.1 st.2 (result ++ [current])

/-- `WorkflowDefinition.topological_sort` (schema.py): Kahn's algorithm; a
result shorter than the node list raises
`ValueError("Circular dependency detected in workflow")`. -/
def WorkflowDefinition.topological_sort (w : WorkflowDefinition) :
    Except String (List WorkflowNode) :=
  let indeg := initInDegree w.nodes
  let queue := w.nodes.filter (fun n => n.depends_on.length = 0)
  let result := kahnLoop w.nodes (2 * w.nodes.length + 1) indeg queue []
  if result.length ≠ w.nodes.length then
    .error "Circular dependency detected in workflow"
  else
    .ok result

/-- External effects of the runtime, abstracted exactly at the boundaries
the spec declares external: the delegated `eval` expression evaluator (one
field per distinct call shape in the source), the `random` module (a stream
of draws), and the network-backed function_call/api_call handler bodies. -/
structure Oracle where
  evalTop : String → Except PyErr PyValue
  evalCtx : String → ExecutionContext → Except PyErr PyValue
  evalItem : String → PyValue → Except PyErr PyValue
  evalAccItem : String → PyValue → PyValue → Except PyErr PyValue
  evalInputCtx : String → PyValue → ExecutionContext → Except PyErr PyValue
  funcCall : List (String × PyValue) → ExecutionContext → Except PyErr PyValue
  apiCall : List (String × PyValue) → ExecutionContext → Except PyErr PyValue
  rng : Nat → Nat

/-- Python iteration (`for item in v`): lists yield elements, strings yield
one-character strings, dicts yield their keys; anything else raises
`TypeError`. -/
def pyIter : PyValue → Except PyErr (List PyValue)
  | .list xs => .ok xs
  | .str s => .ok (s.data.map (fun c => .str ⟨[c]⟩))
  | .dict kvs => .ok (kvs.map (fun e => .str e.1))
  | v => .error (.otherError ("argument of type " ++ pyRepr v ++ " is not iterable"))

/-- The `try` body of `TransformHandler.execute`: filter/map/reduce over the
input, or a free-form expression.  `eval` on a non-string raises
`TypeError`; an empty input list never reaches `eval`. -/
def transformAttempt (o : Oracle) (config : List (String × PyValue)) (ctx : ExecutionContext) :
    Except PyErr PyValue :=
  let input := dictGet config "input" .none
  let operation := dictGet config "operation" .none
  match operation with
  | .str "filter" =>
    (do
      let items ← pyIter input
      let condV := dictGet config "condition" .none
      let kept ← items.foldlM
        (fun acc item =>
          match condV with
          | .str cond => (o.evalItem cond item).map (fun r => if pyTruthy r then acc ++ [item] else acc)
          | _ => .error (.otherError "eval() arg 1 must be a string"))
        ([] : List PyValue)
      pure (.list kept))
  | .str "map" =>
    (do
      let items ← pyIter input
      let exprV := dictGet config "expression" .none
      let mapped ← items.foldlM
        (fun acc item =>
          match exprV with
          | .str expr => (o.evalItem expr item).map (fun r => acc ++ [r])
          | _ => .error (.otherError "eval() arg 1 must be a string"))
        ([] : List PyValue)
      pure (.list mapped))
  | .str "reduce" =>
    (do
      let items ← pyIter input
      let exprV := dictGet config "expression" .none
      let initial := dictGet config "initial" (.int 0)
      items.foldlM
        (fun acc item =>
          match exprV with
          | .str expr => o.evalAccItem expr acc item
          | _ => .error (.otherError "eval() arg 1 must be a string"))
        initial)
  | _ =>
    match dictGet config "expression" .none with
    | .str expr => o.evalInputCtx expr input ctx
    | _ => .error (.otherError "eval() arg 1 must be a string")

/-- `random.randint(lo, hi)` (both ends inclusive) as the `k`-th draw of the
oracle's stream. -/
def randint (o : Oracle) (k lo hi : Nat) : Nat := lo + o.rng k % (hi - lo + 1)

/-- The titles sampled by the mock-contact generator. -/
def mockTitles : List String := ["Engineer", "Manager", "Director"]

/-- One mock contact of the `custom` mock branch (draws 1+3i, 2+3i, 3+3i of
the stream: title choice, mailing-list number, slack-channel number). -/
def mockContact (o : Oracle) (i : Nat) : PyValue :=
  .dict [
    ("email", .str ("contact" ++ toString (i + 1) ++ "@example.com")),
    ("name", .str ("Mock Contact " ++ toString (i + 1))),
    ("title", .str (mockTitles.getD (o.rng (1 + 3 * i) % 3) "Engineer")),
    ("mailing_lists", .list [.str ("list_" ++ toString (randint o (2 + 3 * i) 1 5))]),
    ("slack_channels", .list [.str ("C" ++ toString (randint o (3 + 3 * i) 10000 99999))])]

/-- The `except` branch of `TransformHandler.execute`: fabricated mock data
shaped by the operation type (node_handlers.py lines 214-243). -/
def transformMock (o : Oracle) (operation : PyValue) : PyValue :=
  match operation with
  | .str "custom" =>
    let n1 := randint o 0 2 5
    let n2 := randint o (1 + 3 * n1) 2 5
    .dict [
      ("contacts_with_assignments", .list ((List.range n1).map (mockContact o))),
      ("all_contact_emails",
        .list ((List.range n2).map (fun i => .str ("contact" ++ toString (i + 1) ++ "@example.com")))),
      ("mock", .bool true)]
  | .str "map" =>
    .list ((List.range (randint o 0 2 5)).map (fun i => .str ("transformed_item_" ++ toString i)))
  | .str "filter" =>
    .list ((List.range (randint o 0 1 3)).map (fun i => .str ("filtered_item_" ++ toString i)))
  | op => .dict [("mock", .bool true), ("operation", op), ("status", .str "mocked")]

/-- `TransformHandler.execute` (node_handlers.py): evaluate the requested
operation; if evaluation raises ANY exception, return generated mock data
instead of failing. -/
def TransformHandler.execute (o : Oracle) (config : List (String × PyValue))
    (ctx : ExecutionContext) : Except PyErr PyValue :=
  match transformAttempt o config ctx with
  | .ok v => .ok v
  | .error _ => .ok (transformMock o (dictGet config "operation" .none))

/-- `ConditionHandler.execute`: evaluate the expression (a raise propagates
and fails the node) and report the branch taken. -/
def ConditionHandler.execute (o : Oracle) (config : List (String × PyValue))
    (ctx : ExecutionContext) : Except PyErr PyValue :=
  match dictGet config "condition" .none with
  | .str cond =>
    match o.evalCtx cond ctx with
    | .ok r => .ok (.dict [("condition_met", r), ("branch", .str (if pyTruthy r then "true" else "false"))])
    | .error e => .error e
  | _ => .error (.otherError "eval() arg 1 must be a string")

/-- `LogHandler.execute`: print-only side effects dropped; a non-string
`level` raises `AttributeError` at `level.upper()`. -/
def LogHandler.execute (config : List (String × PyValue)) : Except PyErr PyValue :=
  let message := dictGet config "message" (.str "")
  match dictGet config "level" (.str "info") with
  | .str _ => .ok (.dict [("logged", .bool true), ("message", message)])
  | _ => .error (.otherError "object has no attribute \x27upper\x27")

/-- `DelayHandler.execute`: the sleep itself is wall-clock and dropped; a
non-numeric duration raises inside `asyncio.sleep`. -/
def DelayHandler.execute (config : List (String × PyValue)) : Except PyErr PyValue :=
  match dictGet config "duration" (.int 1) with
  | .int n => .ok (.dict [("delayed", .int n)])
  | .bool b => .ok (.dict [("delayed", .bool b)])   -- bool is an int subtype in Python
  | _ => .error (.otherError "an integer is required")

/-- The node types registered in `NodeHandlerRegistry.__init__`. -/
def handlerTypes : List String :=
  ["function_call", "api_call", "transform", "condition", "log", "delay"]

/-- `NodeHandlerRegistry.has_handler`. -/
def NodeHandlerRegistry.has_handler (t : String) : Bool := handlerTypes.contains t

/-- `NodeHandlerRegistry.get_handler` followed by `handler.execute`: typed
dispatch with the passthrough handler (echo the resolved config) as the
default for unrecognised types.  The function_call and api_call handlers are
network I/O boundaries (spec §6) and are the oracle's `funcCall`/`apiCall`
fields. -/
def runHandler (o : Oracle) (ntype : String) (config : List (String × PyValue))
    (ctx : ExecutionContext) : Except PyErr PyValue :=
  if ntype = "function_call" then o.funcCall config ctx
  else if ntype = "api_call" then o.apiCall config ctx
  else if ntype = "transform" then TransformHandler.execute o config ctx
  else if ntype = "condition" then ConditionHandler.execute o config ctx
  else if ntype = "log" then LogHandler.execute config
  else if ntype = "delay" then DelayHandler.execute config
  else .ok (.dict config)

/-- All capture groups of `re.findall` for the template regex, scanning left
to right with non-overlapping matches, fuelled (every step consumes at least
one character, so the fuel `cs.length` supplied by `templateGroups` is never
exhausted). -/
def templateGroupsF : Nat → List Char → List String
  | 0, _ => []
  | _ + 1, [] => []
  | fuel + 1, c :: cs2 =>
    match matchAt (c :: cs2) with
    | some (run, rest) => (⟨run⟩ : String) :: templateGroupsF fuel rest
    | Option.none => templateGroupsF fuel cs2

/-- All capture groups of the template regex in a string (used by
`validate`). -/
def templateGroups (cs : List Char) : List String :=
  templateGroupsF cs.length cs

/-- The result dict of `SimpleWorkflowExecutor.validate`. -/
structure ValidationResult where
  is_valid : Bool
  errors : List String
  warnings : List String
deriving Repr

/-- The `\x7b\x7bvariable\x7d\x7d`-reference scan of
`SimpleWorkflowExecutor.validate`: every reference found in `str(node.config)`
is stripped of filters and checked; references to unknown variables/nodes
are errors, references to conditional nodes are warnings. -/
def WorkflowDefinition.validateRefs (w : WorkflowDefinition) : List String × List String :=
  let node_ids := w.nodes.map (·.id)
  let conditionalIds :=
    (w.nodes.filter (fun n =>
      match n.condition with
      | some c => c ≠ ""          -- `if node.condition`: the empty string is falsy
      | Option.none => false)).map (·.id)
  w.nodes.foldl
    (fun acc node =>
      (templateGroups (pyStr (.dict node.config)).data).foldl
        (fun acc g =>
          let var_ref0 := pyStrip g
          let var_ref :=
            match pySplitOnce '|' var_ref0 with
            | some (a, _) => pyStrip a
            | Option.none => var_ref0
          let referenced := (pySplit '.' var_ref).headD ""
          if !(w.vars.any (·.1 = referenced)) && !node_ids.contains referenced then
            (acc.1 ++ ["Node \x27" ++ node.id ++ "\x27 references undefined variable/node: \x7b\x7b\x27"
              ++ var_ref ++ "\x27\x7d\x7d"], acc.2)
          else if conditionalIds.contains referenced then
            if !node.depends_on.contains referenced then
              (acc.1, acc.2 ++ ["Node \x27" ++ node.id ++ "\x27 references conditional node \x27"
                ++ referenced ++ "\x27 without depending on it. If \x27" ++ referenced
                ++ "\x27 is skipped, this variable will be undefined."])
            else
              (acc.1, acc.2 ++ ["Node \x27" ++ node.id ++ "\x27 references conditional node \x27"
                ++ referenced ++ "\x27 which may be skipped. Consider handling the case where \x27"
                ++ referenced ++ "\x27 doesn\x27t execute."])
          else acc)
        acc)
    ([], [])

/-- `SimpleWorkflowExecutor.validate`: dependency errors, the circular
dependency check, unsupported-type warnings, then the reference scan. -/
def SimpleWorkflowExecutor.validate (w : WorkflowDefinition) : ValidationResult :=
  let depErrors := w.validate_dependencies
  let cycleErrors :=
    match w.topological_sort with
    | .error e => [e]
    | .ok _ => []
  let typeWarnings :=
    (w.nodes.filter (fun n => !NodeHandlerRegistry.has_handler n.type)).map
      (fun n => "Node type \x27" ++ n.type ++ "\x27 may not be supported")
  let refs := w.validateRefs
  let errors := depErrors ++ cycleErrors ++ refs.1
  { is_valid := errors.isEmpty, errors := errors, warnings := typeWarnings ++ refs.2 }

/-- `SimpleWorkflowExecutor._should_execute_node`: no condition (or the
falsy empty condition) executes; the condition string is variable-resolved
and passed to `eval`; ANY failure on that path logs a warning and defaults
to execute; only a successfully evaluated falsy value skips. -/
def SimpleWorkflowExecutor.should_execute_node (o : Oracle) (node : WorkflowNode)
    (ctx : ExecutionContext) : Bool :=
  match node.condition with
  | Option.none => true
  | some c =>
    if c = "" then true
    else
      match resolve_variables ctx [("expr", .str c)] with
      | .error _ => true
      | .ok resolved =>
        match dictGet resolved "expr" .none with
        | .str s =>
          match o.evalTop s with
          | .ok v => pyTruthy v
          | .error _ => true
        | _ => true      -- eval of a non-string raises TypeError, caught: execute

/-- `NodeResult` (schema.py): per-node outcome.  `execution_time` is
wall-clock and `metadata` is never written by the executor; both are
unmodelled. -/
structure NodeResult where
  node_id : String
  status : String
  output : PyValue := .none
  error : Option String := Option.none
deriving Repr

/-- `str(e)` of a raised exception: the carried message. -/
def errStr : PyErr → String
  | .valueError m => m
  | .otherError m => m

/-- Python dict update for the `node_results` map of the run result. -/
def setResult (d : List (String × NodeResult)) (k : String) (v : NodeResult) :
    List (String × NodeResult) :=
  if d.any (·.1 = k) then d.map (fun e => if e.1 = k then (k, v) else e)
  else d ++ [(k, v)]

/-- `SimpleWorkflowExecutor.execute_node`: look the node up, resolve its
configuration against the context, dispatch to its handler.  A resolution
error propagates before the handler is ever consulted. -/
def SimpleWorkflowExecutor.execute_node (o : Oracle) (w : WorkflowDefinition)
    (nodeId : String) (ctx : ExecutionContext) : Except PyErr PyValue :=
  match w.get_node nodeId with
  | Option.none => .error (.valueError ("Node \x27" ++ nodeId ++ "\x27 not found"))
  | some node =>
    match resolve_variables ctx node.config with
    | .error e => .error e
    | .ok rc => runHandler o node.type rc ctx

/-- The `for node in sorted_nodes` loop of `SimpleWorkflowExecutor.execute`:
skip (recording a skipped result and storing `None` in the context), or run
the node and record success/failure; a failure stops the loop unless the
node declares `on_error == "continue"`. -/
def execLoop (o : Oracle) (w : WorkflowDefinition) :
    List WorkflowNode → ExecutionContext → List (String × NodeResult) →
    List (String × NodeResult) × ExecutionContext
  | [], ctx, acc => (acc, ctx)
  | node :: rest, ctx, acc =>
    if !SimpleWorkflowExecutor.should_execute_node o node ctx then
      execLoop o w rest
        { ctx with node_results := dictSet ctx.node_results node.id .none }
        (setResult acc node.id { node_id := node.id, status := "skipped", output := .none })
    else
      match SimpleWorkflowExecutor.execute_node o w node.id ctx with
      | .ok out =>
        execLoop o w rest
          { ctx with node_results := dictSet ctx.node_results node.id out }
          (setResult acc node.id { node_id := node.id, status := "success", output := out })
      | .error e =>
        let acc2 := setResult acc node.id
          { node_id := node.id, status := "failed", error := some (errStr e) }
        if node.on_error = some "continue" then execLoop o w rest ctx acc2
        else (acc2, ctx)

/-- `WorkflowExecutionResult` (schema.py lines 144-153).  The source model
declares exactly workflow_id, execution_id, status, node_results,
start_time, end_time, total_duration and error; identifiers and wall-clock
fields are environment inputs and are unmodelled.  The source model declares
NO `warnings` field: `execute` passes a `warnings=` keyword argument at
every construction site, and pydantic silently drops unknown keyword
arguments, so the embedded structure faithfully has no such field either. -/
structure WorkflowExecutionResult where
  status : String
  node_results : List (String × NodeResult)
  error : Option String := Option.none
deriving Repr

/-- `SimpleWorkflowExecutor.execute`: validate (aborting with a failed
result when errors exist), merge variables, sort, run the node loop, and
aggregate the final status (`success` when every recorded result succeeded,
else `failed` when any recorded result failed, else `partial`). -/
def SimpleWorkflowExecutor.execute (o : Oracle) (w : WorkflowDefinition)
    (initial : List (String × PyValue)) : WorkflowExecutionResult :=
  let validation := SimpleWorkflowExecutor.validate w
  if !validation.is_valid then
    { status := "failed", node_results := [],
      error := some ("Workflow validation failed: " ++ pyStr (.list (validation.errors.map .str))) }
  else
    let ctx : ExecutionContext := { vars := dictMerge w.vars initial, node_results := [] }
    match w.topological_sort with
    | .error e => { status := "failed", node_results := [], error := some e }
    | .ok sorted =>
      let res := execLoop o w sorted ctx []
      let has_failures := res.1.any (fun e => e.2.status = "failed")
      let all_success := res.1.all (fun e => e.2.status = "success")
      { status := if all_success then "success" else if has_failures then "failed" else "partial",
        node_results := res.1, error := Option.none }

/-- The dependency edge relation of a workflow: `wfEdge w a b` holds when
some node with id `b` lists `a` in its `depends_on` (so `a` must run before
`b`).  A cyclic dependency graph is one with `Relation.TransGen (wfEdge w) x x`
for some id `x`. -/
def wfEdge (w : WorkflowDefinition) (a b : String) : Prop :=
  ∃ n ∈ w.nodes, n.id = b ∧ a ∈ n.depends_on

/-- An oracle whose every external call fails and whose random stream is
constantly zero: the concrete scenarios below use only the behaviour the
engine implements itself. -/
def trivialOracle : Oracle where
  evalTop := fun _ => .error (.otherError "eval failed")
  evalCtx := fun _ _ => .error (.otherError "eval failed")
  evalItem := fun _ _ => .error (.otherError "eval failed")
  evalAccItem := fun _ _ _ => .error (.otherError "eval failed")
  evalInputCtx := fun _ _ _ => .error (.otherError "eval failed")
  funcCall := fun _ _ => .error (.otherError "network unavailable")
  apiCall := fun _ _ => .error (.otherError "network unavailable")
  rng := fun _ => 0

/-- Scenario D of the spec, realised concretely: node `p` fails (its config
references `s.missing`, which does not resolve) with `on_error = continue`,
and the independent node `r` succeeds. -/
def wScenarioD : WorkflowDefinition where
  nodes := [
    { id := "s", type := "log", config := [("message", .str "start")] },
    { id := "p", type := "log", config := [("message", .str "\x7b\x7bs.missing\x7d\x7d")],
      depends_on := ["s"], on_error := some "continue" },
    { id := "r", type := "log", config := [("message", .str "hi")] }]

/-- A workflow whose dependency graph is acyclic (single edge a -> b) but
where `b` lists its dependency `a` twice. -/
def wDupDeps : WorkflowDefinition where
  nodes := [
    { id := "a", type := "log" },
    { id := "b", type := "log", depends_on := ["a", "a"] }]

/-- A two-node dependency cycle. -/
def wCycle : WorkflowDefinition where
  nodes := [
    { id := "a", type := "log", depends_on := ["b"] },
    { id := "b", type := "log", depends_on := ["a"] }]

/-- An acyclic three-node workflow (c depends on a and b, b depends on a),
listed in reverse order. -/
def wChain : WorkflowDefinition where
  nodes := [
    { id := "c", type := "log", depends_on := ["a", "b"] },
    { id := "b", type := "log", depends_on := ["a"] },
    { id := "a", type := "log" }]

/-- A workflow with one node of an unregistered type: validation produces a
warning and no error. -/
def wWarnType : WorkflowDefinition where
  nodes := [{ id := "m", type := "mystery", config := [("k", .int 1)] }]

/-- A workflow with a single transform node whose free-form expression will
fail to evaluate (scenario for the transform mock-data behaviour). -/
def wTransformFail : WorkflowDefinition where
  nodes := [
    { id := "t", type := "transform",
      config := [("input", .list [.int 1, .int 2]), ("operation", .str "map"),
                 ("expression", .str "item.nonexistent_attr")] }]

/-- A context for the resolver counterexamples: the variable `d` is a
nonempty dict, `q` is a finished node whose output is a dict, and `p` is a
skipped node (its stored output is `None`). -/
def ctxCounter : ExecutionContext where
  vars := [("d", .dict [("k", .int 1)]), ("x", .int 5)]
  node_results := [("p", .none), ("q", .dict [("logged", .bool true)])]

/-- A node configuration holding one unresolvable reference and one
reference whose filter application raises (`first` on a dict). -/
def configMixedFailure : List (String × PyValue) :=
  [("message", .str "\x7b\x7bmissing\x7d\x7d"), ("extra", .str "\x7b\x7bd | first\x7d\x7d")]

/-- Number of dependencies of `n` not yet popped into the result (the value
the in-degree dict tracks for `n.id` throughout the Kahn loop, provided the
node's `depends_on` list has no duplicate entries). -/
def pendingCount (resultIds : List String) (n : WorkflowNode) : Nat :=
  (n.depends_on.filter (fun d => !resultIds.contains d)).length

/-- Loop invariant of the Kahn loop in `topological_sort`: the processed
prefix `result` and the pending `queue` hold distinct nodes of the workflow;
the in-degree dict counts the unpopped dependencies of every node; queued
nodes have all dependencies already popped; popped nodes have all
dependencies popped strictly earlier; and every node whose dependencies are
all popped has been scheduled (popped or queued). -/
structure KahnInv (nodes : List WorkflowNode) (indeg : String → Int)
    (queue result : List WorkflowNode) : Prop where
  result_sub : ∀ n ∈ result, n ∈ nodes
  queue_sub : ∀ n ∈ queue, n ∈ nodes
  nodup : ((result ++ queue).map (fun n => n.id)).Nodup
  indeg_eq : ∀ n ∈ nodes, indeg n.id = (pendingCount (result.map (fun n => n.id)) n : Int)
  queue_ready : ∀ n ∈ queue, ∀ d ∈ n.depends_on, d ∈ result.map (fun n => n.id)
  result_order : ∀ j : Fin result.length, ∀ d ∈ (result.get j).depends_on,
      d ∈ (result.take j).map (fun n => n.id)
  complete : ∀ n ∈ nodes, (∀ d ∈ n.depends_on, d ∈ result.map (fun n => n.id)) →
      n ∈ result ∨ n ∈ queue

/-- The well-formedness assumptions of the amended sorting claim: node ids
are unique and every dependency exists (the data-model invariants of spec
§3), and no `depends_on` list names the same dependency twice (the loop
decrements an in-degree at most once per popped node, so a duplicated entry
is never fully discharged). -/
def GoodGraph (w : WorkflowDefinition) : Prop :=
  (w.nodes.map (fun n => n.id)).Nodup ∧
  (∀ n ∈ w.nodes, ∀ d ∈ n.depends_on, d ∈ w.nodes.map (fun n => n.id)) ∧
  (∀ n ∈ w.nodes, n.depends_on.Nodup)

/-- The body of `topological_sort` before its length check: the value the
Kahn loop drains to (named for the correctness development below). -/
def kahnRun (w : WorkflowDefinition) : List WorkflowNode :=
  kahnLoop w.nodes (2 * w.nodes.length + 1) (initInDegree w.nodes)
    (w.nodes.filter (fun n => n.depends_on.length = 0)) []

/-- How one resolved value is rendered into the surrounding text by the
`re.sub` branch of `resolve_value`: strings verbatim, anything else through
`json.dumps`. -/
def renderChars : PyValue → List Char
  | .str s => s.data
  | v => (jsonDumps v).data

/-- A context holding the values of the spec’s filter examples. -/
def ctxFilters : ExecutionContext where
  vars := [("items", .list [.int 1, .int 2, .int 3]), ("name", .str "ada"), ("s", .str " hi ")]
  node_results := []

/-- A node whose condition references an unresolvable variable. -/
def nodeCondMissing : WorkflowNode :=
  { id := "n", type := "log", condition := some "\x7b\x7bmissing\x7d\x7d" }

/-- A one-node workflow around `configMixedFailure`. -/
def wMixed : WorkflowDefinition where
  nodes := [{ id := "n", type := "log", config := configMixedFailure }]

/-- A workflow whose single node depends on a nonexistent id (validation fails). -/
def wBadDep : WorkflowDefinition where
  nodes := [{ id := "a", type := "log", depends_on := ["zz"] }]

theorem nodeInj {nodes : List WorkflowNode} (hids : (nodes.map (fun n => n.id)).Nodup)
    {n m : WorkflowNode} (hn : n ∈ nodes) (hm : m ∈ nodes) (h : n.id = m.id) : n = m := by
  induction nodes with
  | nil => cases hn
  | cons a l ih =>
    simp only [List.map_cons, List.nodup_cons] at hids
    rcases List.mem_cons.mp hn with rfl | hn2
    · rcases List.mem_cons.mp hm with rfl | hm2
      · rfl
      · exact absurd (h ▸ List.mem_map_of_mem (fun n => n.id) hm2) hids.1
    · rcases List.mem_cons.mp hm with rfl | hm2
      · exact absurd (h ▸ List.mem_map_of_mem (fun n => n.id) hn2) hids.1
      · exact ih hids.2 hn2 hm2

theorem foldl_upd_not_mem (l : List WorkflowNode) (base : String → Int) (k : String)
    (hk : k ∉ l.map (fun n => n.id)) :
    (l.foldl (fun m n => fun k2 => if k2 = n.id then (n.depends_on.length : Int) else m k2) base) k
      = base k := by
  induction l generalizing base with
  | nil => rfl
  | cons a l ih =>
    simp only [List.map_cons, List.mem_cons, not_or] at hk
    simp only [List.foldl_cons]
    rw [ih _ hk.2]
    simp [hk.1]

theorem foldl_upd_mem (l : List WorkflowNode) (base : String → Int)
    (hids : (l.map (fun n => n.id)).Nodup) {n : WorkflowNode} (hn : n ∈ l) :
    (l.foldl (fun m n => fun k2 => if k2 = n.id then (n.depends_on.length : Int) else m k2) base) n.id
      = (n.depends_on.length : Int) := by
  induction l generalizing base with
  | nil => cases hn
  | cons a l ih =>
    simp only [List.map_cons, List.nodup_cons] at hids
    simp only [List.foldl_cons]
    rcases List.mem_cons.mp hn with rfl | hn2
    · rw [foldl_upd_not_mem _ _ _ hids.1]
      simp
    · exact ih _ hids.2 hn2

theorem initInDegree_eq {nodes : List WorkflowNode}
    (hids : (nodes.map (fun n => n.id)).Nodup) {n : WorkflowNode} (hn : n ∈ nodes) :
    initInDegree nodes n.id = (n.depends_on.length : Int) :=
  foldl_upd_mem nodes _ hids hn

theorem count_aux (ds : List String) (old : List String) (c : String) (hc : c ∉ old)
    (hnd : ds.Nodup) :
    ((ds.filter (fun d => !(old ++ [c]).contains d)).length : Int)
      = ((ds.filter (fun d => !old.contains d)).length : Int)
        - (if ds.contains c then 1 else 0) := by
  induction ds with
  | nil => simp
  | cons d ds ih =>
    simp only [List.nodup_cons] at hnd
    have ihh := ih hnd.2
    simp only [List.filter_cons] at ihh ⊢
    by_cases hdc : d = c
    · subst hdc
      simp [hc, hnd.1] at ihh ⊢
      omega
    · by_cases hdo : d ∈ old
      · simp [hdo, hdc, Ne.symm hdc] at ihh ⊢
        rw [ihh]
      · simp [hdo, hdc, Ne.symm hdc] at ihh ⊢
        split at ihh <;> split <;> simp_all

theorem pendingCount_pop (current : WorkflowNode) (result : List WorkflowNode)
    (hcur : current.id ∉ result.map (fun n => n.id)) (n : WorkflowNode)
    (hnd : n.depends_on.Nodup) :
    (pendingCount ((result ++ [current]).map (fun n => n.id)) n : Int)
      = (pendingCount (result.map (fun n => n.id)) n : Int)
        - (if n.depends_on.contains current.id then 1 else 0) := by
  unfold pendingCount
  rw [List.map_append]
  simpa using count_aux n.depends_on (result.map (fun n => n.id)) current.id hcur hnd

theorem kahnStep_go (current : WorkflowNode) (result : List WorkflowNode)
    (hcur : current.id ∉ result.map (fun n => n.id))
    (l : List WorkflowNode)
    (hlids : (l.map (fun n => n.id)).Nodup)
    (hlnd : ∀ n ∈ l, n.depends_on.Nodup)
    (indeg : String → Int) (q : List WorkflowNode)
    (hindeg : ∀ n ∈ l, indeg n.id = (pendingCount (result.map (fun n => n.id)) n : Int)) :
    (∀ n ∈ l, (kahnStep l current (indeg, q)).1 n.id
        = (pendingCount ((result ++ [current]).map (fun n => n.id)) n : Int)) ∧
    (∀ k, k ∉ l.map (fun n => n.id) → (kahnStep l current (indeg, q)).1 k = indeg k) ∧
    (kahnStep l current (indeg, q)).2 = q ++ l.filter
      (fun n => n.depends_on.contains current.id
        && (pendingCount ((result ++ [current]).map (fun n => n.id)) n == 0)) := by
  induction l generalizing indeg q with
  | nil => exact ⟨by simp, fun k _ => rfl, by simp [kahnStep]⟩
  | cons a l ih =>
    simp only [List.map_cons, List.nodup_cons] at hlids
    have hand : a.depends_on.Nodup := hlnd a (by simp)
    have hacount := pendingCount_pop current result hcur a hand
    have haindeg : indeg a.id = (pendingCount (result.map (fun n => n.id)) a : Int) :=
      hindeg a (by simp)
    have hstep : kahnStep (a :: l) current (indeg, q)
        = kahnStep l current
          (if a.depends_on.contains current.id then
            (fun k => if k = a.id then indeg a.id - 1 else indeg k,
              if (if a.id = a.id then indeg a.id - 1 else indeg a.id) = 0 then q ++ [a] else q)
          else (indeg, q)) := by
      rw [kahnStep, kahnStep, List.foldl_cons]
      congr 1
      split
      · show (let indeg2 : String → Int :=
            fun k => if k = a.id then (indeg, q).1 a.id - 1 else (indeg, q).1 k;
          if indeg2 a.id = 0 then (indeg2, (indeg, q).2 ++ [a]) else (indeg2, (indeg, q).2)) = _
        dsimp only
        by_cases hz : (if a.id = a.id then indeg a.id - 1 else indeg a.id) = 0
        · rw [if_pos hz, if_pos hz]
        · rw [if_neg hz, if_neg hz]
      · rfl
    by_cases hdep : a.depends_on.contains current.id
    · rw [hstep, if_pos hdep, if_pos rfl]
      have ha2 : indeg a.id - 1
          = (pendingCount ((result ++ [current]).map (fun n => n.id)) a : Int) := by
        rw [haindeg, hacount, if_pos hdep]
      have hrec : ∀ n ∈ l, (fun k => if k = a.id then indeg a.id - 1 else indeg k) n.id
          = (pendingCount (result.map (fun n => n.id)) n : Int) := by
        intro n hn
        have hne : n.id ≠ a.id := by
          intro hh
          exact hlids.1 (hh ▸ List.mem_map_of_mem (fun n => n.id) hn)
        simpa [if_neg hne] using hindeg n (List.mem_cons_of_mem a hn)
      by_cases hz : indeg a.id - 1 = 0
      · rw [if_pos hz]
        have hcnt0 : pendingCount ((result ++ [current]).map (fun n => n.id)) a = 0 := by
          have := ha2.symm.trans hz
          exact_mod_cast this
        obtain ⟨h1, h2, h3⟩ := ih hlids.2 (fun n hn => hlnd n (List.mem_cons_of_mem a hn)) (fun k => if k = a.id then indeg a.id - 1 else indeg k) (q ++ [a]) hrec
        refine ⟨?_, ?_, ?_⟩
        · intro n hn
          rcases List.mem_cons.mp hn with rfl | hn2
          · exact (h2 n.id hlids.1).trans (by simpa using ha2)
          · exact h1 n hn2
        · intro k hk
          simp only [List.map_cons, List.mem_cons, not_or] at hk
          exact (h2 k hk.2).trans (by simp [hk.1])
        · refine h3.trans ?_
          rw [List.filter_cons]
          have hp : (a.depends_on.contains current.id
              && (pendingCount ((result ++ [current]).map (fun n => n.id)) a == 0)) = true := by
            rw [hdep]
            simpa using hcnt0
          simp only [hp, if_true]
          simp
      · rw [if_neg hz]
        have hcntn0 : (pendingCount ((result ++ [current]).map (fun n => n.id)) a == 0) = false := by
          have hne0 : pendingCount ((result ++ [current]).map (fun n => n.id)) a ≠ 0 := by
            intro hh
            rw [hh] at ha2
            exact hz (by simpa using ha2)
          simpa using hne0
        obtain ⟨h1, h2, h3⟩ := ih hlids.2 (fun n hn => hlnd n (List.mem_cons_of_mem a hn)) (fun k => if k = a.id then indeg a.id - 1 else indeg k) q hrec
        refine ⟨?_, ?_, ?_⟩
        · intro n hn
          rcases List.mem_cons.mp hn with rfl | hn2
          · exact (h2 n.id hlids.1).trans (by simpa using ha2)
          · exact h1 n hn2
        · intro k hk
          simp only [List.map_cons, List.mem_cons, not_or] at hk
          exact (h2 k hk.2).trans (by simp [hk.1])
        · refine h3.trans ?_
          rw [List.filter_cons]
          have hp : (a.depends_on.contains current.id
              && (pendingCount ((result ++ [current]).map (fun n => n.id)) a == 0)) = false := by
            rw [hdep, hcntn0]
            rfl
          simp only [hp]
          simp
    · rw [hstep, if_neg hdep]
      have hceq : (pendingCount ((result ++ [current]).map (fun n => n.id)) a : Int)
          = (pendingCount (result.map (fun n => n.id)) a : Int) := by
        rw [hacount]
        have hc0 : a.depends_on.contains current.id = false :=
          Bool.not_eq_true _ ▸ Bool.of_not_eq_true hdep
        rw [hc0]
        simp
      obtain ⟨h1, h2, h3⟩ := ih hlids.2 (fun n hn => hlnd n (List.mem_cons_of_mem a hn)) indeg q
        (fun n hn => hindeg n (List.mem_cons_of_mem a hn))
      refine ⟨?_, ?_, ?_⟩
      · intro n hn
        rcases List.mem_cons.mp hn with rfl | hn2
        · rw [h2 n.id hlids.1, haindeg, hceq]
        · exact h1 n hn2
      · intro k hk
        simp only [List.map_cons, List.mem_cons, not_or] at hk
        exact h2 k hk.2
      · refine h3.trans ?_
        rw [List.filter_cons]
        have hp : (a.depends_on.contains current.id
            && (pendingCount ((result ++ [current]).map (fun n => n.id)) a == 0)) = false := by
          have hc0 : a.depends_on.contains current.id = false := by
            exact Bool.not_eq_true _ ▸ Bool.of_not_eq_true hdep
          rw [hc0, Bool.false_and]
        simp only [hp]
        simp

theorem filter_len_zero_mem {l ids : List String}
    (h : (l.filter (fun d => !ids.contains d)).length = 0) : ∀ d ∈ l, d ∈ ids := by
  intro d hd
  have hnil : l.filter (fun d => !ids.contains d) = [] := List.length_eq_zero.mp h
  by_contra hnot
  have hmem : d ∈ l.filter (fun d => !ids.contains d) :=
    List.mem_filter.mpr ⟨hd, by simpa using hnot⟩
  rw [hnil] at hmem
  cases hmem

theorem order_all_mem {result : List WorkflowNode}
    (horder : ∀ j : Fin result.length, ∀ d ∈ (result.get j).depends_on,
      d ∈ (result.take j).map (fun n => n.id)) :
    ∀ n ∈ result, ∀ d ∈ n.depends_on, d ∈ result.map (fun n => n.id) := by
  intro n hn d hd
  obtain ⟨j, hj⟩ := List.mem_iff_get.mp hn
  have hh := horder j d (by rw [hj]; exact hd)
  rw [List.map_take] at hh
  exact List.mem_of_mem_take hh

theorem mem_filter_len_zero {l ids : List String} (h : ∀ d ∈ l, d ∈ ids) :
    (l.filter (fun d => !ids.contains d)).length = 0 := by
  rw [List.length_eq_zero, List.filter_eq_nil_iff]
  intro x hx
  simp [h x hx]

theorem kahnInv_step {nodes : List WorkflowNode}
    (hids : (nodes.map (fun n => n.id)).Nodup)
    (hnd : ∀ n ∈ nodes, n.depends_on.Nodup)
    {indeg : String → Int} {current : WorkflowNode} {rest result : List WorkflowNode}
    (inv : KahnInv nodes indeg (current :: rest) result) :
    KahnInv nodes (kahnStep nodes current (indeg, rest)).1
      (kahnStep nodes current (indeg, rest)).2 (result ++ [current]) := by
  have hcur_mem : current ∈ nodes := inv.queue_sub current (List.mem_cons_self _ _)
  have hnodup0 := inv.nodup
  rw [List.map_append, List.nodup_append] at hnodup0
  have hcur_notin : current.id ∉ result.map (fun n => n.id) := by
    intro hmem
    exact hnodup0.2.2 hmem (by simp)
  obtain ⟨h1, h2, h3⟩ := kahnStep_go current result hcur_notin nodes hids hnd indeg rest
    inv.indeg_eq
  have hresult_all : ∀ n ∈ result, ∀ d ∈ n.depends_on, d ∈ result.map (fun n => n.id) :=
    order_all_mem inv.result_order
  have hnew_not : ∀ n ∈ nodes,
      (n.depends_on.contains current.id
        && (pendingCount ((result ++ [current]).map (fun n => n.id)) n == 0)) = true →
      n ∉ result ∧ n ≠ current ∧ n ∉ rest := by
    intro n _ hpred
    rw [Bool.and_eq_true] at hpred
    have hdep : current.id ∈ n.depends_on := by simpa using hpred.1
    refine ⟨?_, ?_, ?_⟩
    · intro hmem
      exact hcur_notin (hresult_all n hmem current.id hdep)
    · intro heq
      subst heq
      exact hcur_notin (inv.queue_ready n (List.mem_cons_self _ _) n.id hdep)
    · intro hmem
      exact hcur_notin (inv.queue_ready n (List.mem_cons_of_mem _ hmem) current.id hdep)
  have hold_nodup : (((result ++ [current]) ++ rest).map (fun n => n.id)).Nodup := by
    have heq : (result ++ [current]) ++ rest = result ++ current :: rest := by simp
    rw [heq]
    exact inv.nodup
  refine ⟨?_, ?_, ?_, ?_, ?_, ?_, ?_⟩
  · intro n hn
    rcases List.mem_append.mp hn with hn2 | hn2
    · exact inv.result_sub n hn2
    · rw [List.mem_singleton.mp hn2]
      exact hcur_mem
  · intro n hn
    rw [h3] at hn
    rcases List.mem_append.mp hn with hn2 | hn2
    · exact inv.queue_sub n (List.mem_cons_of_mem _ hn2)
    · exact (List.mem_filter.mp hn2).1
  · rw [h3]
    have hassoc : (result ++ [current]) ++ (rest ++ nodes.filter
        (fun n => n.depends_on.contains current.id
          && (pendingCount ((result ++ [current]).map (fun n => n.id)) n == 0)))
        = ((result ++ [current]) ++ rest) ++ nodes.filter
        (fun n => n.depends_on.contains current.id
          && (pendingCount ((result ++ [current]).map (fun n => n.id)) n == 0)) := by
      simp
    rw [hassoc, List.map_append, List.nodup_append]
    refine ⟨hold_nodup, ?_, ?_⟩
    · exact ((List.filter_sublist _).map _).nodup hids
    · intro x hx hx2
      simp only [List.mem_map] at hx hx2
      obtain ⟨m, hm_mem, hm_id⟩ := hx
      obtain ⟨n, hn_mem, hn_id⟩ := hx2
      have hn_filter := List.mem_filter.mp hn_mem
      have hnots := hnew_not n hn_filter.1 hn_filter.2
      have hm_nodes : m ∈ nodes := by
        rcases List.mem_append.mp hm_mem with hmm | hmm
        · rcases List.mem_append.mp hmm with hmm2 | hmm2
          · exact inv.result_sub m hmm2
          · rw [List.mem_singleton.mp hmm2]
            exact hcur_mem
        · exact inv.queue_sub m (List.mem_cons_of_mem _ hmm)
      have heqmn : m = n := nodeInj hids hm_nodes hn_filter.1 (hm_id.trans hn_id.symm)
      subst heqmn
      rcases List.mem_append.mp hm_mem with hmm | hmm
      · rcases List.mem_append.mp hmm with hmm2 | hmm2
        · exact hnots.1 hmm2
        · exact hnots.2.1 (List.mem_singleton.mp hmm2)
      · exact hnots.2.2 hmm
  · exact fun n hn => h1 n hn
  · intro n hn d hd
    rw [h3] at hn
    rcases List.mem_append.mp hn with hn2 | hn2
    · have := inv.queue_ready n (List.mem_cons_of_mem _ hn2) d hd
      rw [List.map_append]
      exact List.mem_append_left _ this
    · have hpred := (List.mem_filter.mp hn2).2
      rw [Bool.and_eq_true] at hpred
      have hcnt : pendingCount ((result ++ [current]).map (fun n => n.id)) n = 0 := by
        simpa using hpred.2
      exact filter_len_zero_mem hcnt d hd
  · intro j d hd
    by_cases hj : (j : Nat) < result.length
    · have hget : (result ++ [current]).get j = result.get ⟨j, hj⟩ := List.get_append _ hj
      rw [hget] at hd
      have hmem := inv.result_order ⟨(j : Nat), hj⟩ d hd
      have htake : (result ++ [current]).take (j : Nat) = result.take (j : Nat) :=
        List.take_append_of_le_length (Nat.le_of_lt hj)
      rw [htake]
      exact hmem
    · have hjlt : (j : Nat) < result.length + 1 := by simpa using j.isLt
      have hj2 : (j : Nat) = result.length := by omega
      have hget : (result ++ [current]).get j = current := by
        have := List.get_of_append (l := result ++ [current]) rfl rfl
        rw [show j = ⟨result.length, by simp⟩ from Fin.ext hj2]
        exact this
      rw [hget] at hd
      have hmem := inv.queue_ready current (List.mem_cons_self _ _) d hd
      rw [hj2, List.take_left]
      exact hmem
  · intro n hn hdeps
    by_cases hall : ∀ d ∈ n.depends_on, d ∈ result.map (fun n => n.id)
    · rcases inv.complete n hn hall with hmem | hmem
      · exact Or.inl (List.mem_append_left _ hmem)
      · rcases List.mem_cons.mp hmem with heq | hmem2
        · subst heq
          exact Or.inl (List.mem_append_right _ (by simp))
        · rw [h3]
          exact Or.inr (List.mem_append_left _ hmem2)
    · push_neg at hall
      obtain ⟨d, hd, hdnot⟩ := hall
      have hdnew := hdeps d hd
      rw [List.map_append] at hdnew
      rcases List.mem_append.mp hdnew with hh | hh
      · exact absurd hh hdnot
      · have hdc : d = current.id := by simpa using hh
        subst hdc
        have hcontains : n.depends_on.contains current.id = true := by simpa using hd
        have hcnt : pendingCount ((result ++ [current]).map (fun n => n.id)) n = 0 :=
          mem_filter_len_zero hdeps
        rw [h3]
        refine Or.inr (List.mem_append_right _ (List.mem_filter.mpr ⟨hn, ?_⟩))
        rw [Bool.and_eq_true]
        exact ⟨hcontains, by simpa using hcnt⟩

theorem kahnInv_length_le {nodes : List WorkflowNode} {indeg queue result}
    (inv : KahnInv nodes indeg queue result) :
    result.length + queue.length ≤ nodes.length := by
  have hnodup := inv.nodup
  have hsub : (result ++ queue).map (fun n => n.id) ⊆ nodes.map (fun n => n.id) := by
    intro x hx
    simp only [List.mem_map] at hx ⊢
    obtain ⟨m, hm, rfl⟩ := hx
    rcases List.mem_append.mp hm with h | h
    · exact ⟨m, inv.result_sub m h, rfl⟩
    · exact ⟨m, inv.queue_sub m h, rfl⟩
  have := (List.subperm_of_subset hnodup hsub).length_le
  simpa using this

theorem kahnLoop_spec {nodes : List WorkflowNode}
    (hids : (nodes.map (fun n => n.id)).Nodup)
    (hnd : ∀ n ∈ nodes, n.depends_on.Nodup) :
    ∀ fuel indeg queue result, KahnInv nodes indeg queue result →
    nodes.length - result.length < fuel →
    (∀ n ∈ kahnLoop nodes fuel indeg queue result, n ∈ nodes) ∧
    ((kahnLoop nodes fuel indeg queue result).map (fun n => n.id)).Nodup ∧
    (∀ j : Fin (kahnLoop nodes fuel indeg queue result).length,
      ∀ d ∈ ((kahnLoop nodes fuel indeg queue result).get j).depends_on,
        d ∈ ((kahnLoop nodes fuel indeg queue result).take j).map (fun n => n.id)) ∧
    (∀ n ∈ nodes,
      (∀ d ∈ n.depends_on, d ∈ (kahnLoop nodes fuel indeg queue result).map (fun n => n.id)) →
        n ∈ kahnLoop nodes fuel indeg queue result) := by
  intro fuel
  induction fuel with
  | zero => intro indeg queue result _ hfuel; omega
  | succ f ih =>
    intro indeg queue result inv hfuel
    match queue with
    | [] =>
      have hred : kahnLoop nodes (f + 1) indeg [] result = result := rfl
      rw [hred]
      refine ⟨inv.result_sub, ?_, inv.result_order, ?_⟩
      · have := inv.nodup
        simpa using this
      · intro n hn hdeps
        rcases inv.complete n hn hdeps with h | h
        · exact h
        · cases h
    | current :: rest =>
      have hred : kahnLoop nodes (f + 1) indeg (current :: rest) result
          = kahnLoop nodes f (kahnStep nodes current (indeg, rest)).1
              (kahnStep nodes current (indeg, rest)).2 (result ++ [current]) := rfl
      rw [hred]
      have hlen := kahnInv_length_le inv
      simp only [List.length_cons] at hlen
      exact ih _ _ _ (kahnInv_step hids hnd inv)
        (by simp only [List.length_append, List.length_singleton]; omega)

theorem kahnInv_init {w : WorkflowDefinition} (hgood : GoodGraph w) :
    KahnInv w.nodes (initInDegree w.nodes)
      (w.nodes.filter (fun n => n.depends_on.length = 0)) [] := by
  obtain ⟨hids, _, _⟩ := hgood
  refine ⟨?_, ?_, ?_, ?_, ?_, ?_, ?_⟩
  · intro n hn; cases hn
  · intro n hn
    exact (List.mem_filter.mp hn).1
  · have hsub : ((w.nodes.filter (fun n => n.depends_on.length = 0)).map
        (fun n => n.id)).Sublist (w.nodes.map (fun n => n.id)) :=
      (List.filter_sublist _).map _
    simpa using hsub.nodup hids
  · intro n hn
    rw [initInDegree_eq hids hn]
    unfold pendingCount
    simp
  · intro n hn d hd
    have := (List.mem_filter.mp hn).2
    have hlen : n.depends_on.length = 0 := by simpa using this
    rw [List.length_eq_zero.mp hlen] at hd
    cases hd
  · intro j
    exact absurd j.isLt (by simp)
  · intro n hn hdeps
    right
    refine List.mem_filter.mpr ⟨hn, ?_⟩
    have : n.depends_on = [] := by
      cases hh : n.depends_on with
      | nil => rfl
      | cons d ds =>
        have := hdeps d (by rw [hh]; simp)
        simp at this
    simp [this]

theorem kahn_final_spec {w : WorkflowDefinition} (hgood : GoodGraph w) :
    (∀ n ∈ kahnRun w, n ∈ w.nodes) ∧
    ((kahnRun w).map (fun n => n.id)).Nodup ∧
    (∀ j : Fin (kahnRun w).length, ∀ d ∈ ((kahnRun w).get j).depends_on,
        d ∈ ((kahnRun w).take j).map (fun n => n.id)) ∧
    (∀ n ∈ w.nodes, (∀ d ∈ n.depends_on, d ∈ (kahnRun w).map (fun n => n.id)) →
        n ∈ kahnRun w) :=
  kahnLoop_spec hgood.1 hgood.2.2 (2 * w.nodes.length + 1) _ _ _ (kahnInv_init hgood)
    (by omega)

theorem topological_sort_eq (w : WorkflowDefinition) :
    w.topological_sort
      = if (kahnRun w).length ≠ w.nodes.length then
          .error "Circular dependency detected in workflow"
        else .ok (kahnRun w) := rfl

theorem kahnRun_length_le {w : WorkflowDefinition} (hgood : GoodGraph w) :
    (kahnRun w).length ≤ w.nodes.length := by
  obtain ⟨hsub, hnodup, _, _⟩ := kahn_final_spec hgood
  have hsubids : (kahnRun w).map (fun n => n.id) ⊆ w.nodes.map (fun n => n.id) := by
    intro x hx
    simp only [List.mem_map] at hx ⊢
    obtain ⟨m, hm, rfl⟩ := hx
    exact ⟨m, hsub m hm, rfl⟩
  have hle := (List.subperm_of_subset hnodup hsubids).length_le
  simpa using hle

theorem kahn_complete {w : WorkflowDefinition} (hgood : GoodGraph w)
    (hacyc : ¬ ∃ x, Relation.TransGen (wfEdge w) x x) :
    (kahnRun w).length = w.nodes.length := by
  obtain ⟨hsub, hnodup, horder, hcomplete⟩ := kahn_final_spec hgood
  by_contra hne
  have hlt : (kahnRun w).length < w.nodes.length :=
    lt_of_le_of_ne (kahnRun_length_le hgood) hne
  -- the unscheduled nodes
  set M := w.nodes.filter (fun n => !((kahnRun w).map (fun n => n.id)).contains n.id) with hM
  have hid_final : ∀ n ∈ w.nodes, n.id ∈ (kahnRun w).map (fun n => n.id) → n ∈ kahnRun w := by
    intro n hn hid
    simp only [List.mem_map] at hid
    obtain ⟨m, hm, hmeq⟩ := hid
    have : m = n := nodeInj hgood.1 (hsub m hm) hn hmeq
    exact this ▸ hm
  have hM_mem : ∀ n, n ∈ M ↔ (n ∈ w.nodes ∧ n.id ∉ (kahnRun w).map (fun n => n.id)) := by
    intro n
    rw [hM, List.mem_filter]
    simp
  have hM_ne : ∃ n0, n0 ∈ M := by
    by_contra hnone
    push_neg at hnone
    have hsub2 : w.nodes ⊆ kahnRun w := by
      intro n hn
      by_contra hnot
      have hidnot : n.id ∉ (kahnRun w).map (fun n => n.id) := by
        intro hid
        exact hnot (hid_final n hn hid)
      exact hnone n ((hM_mem n).mpr ⟨hn, hidnot⟩)
    have hnodes_nodup : w.nodes.Nodup := List.Nodup.of_map _ hgood.1
    have : w.nodes.length ≤ (kahnRun w).length :=
      (List.subperm_of_subset hnodes_nodup hsub2).length_le
    omega
  have hstep : ∀ m ∈ M, ∃ m2, m2 ∈ M ∧ wfEdge w m2.id m.id := by
    intro m hm
    obtain ⟨hm_nodes, hm_id⟩ := (hM_mem m).mp hm
    have hnotall : ¬ ∀ d ∈ m.depends_on, d ∈ (kahnRun w).map (fun n => n.id) := by
      intro hall
      exact hm_id (List.mem_map_of_mem _ (hcomplete m hm_nodes hall))
    push_neg at hnotall
    obtain ⟨d, hd, hdnot⟩ := hnotall
    have hd_exists : d ∈ w.nodes.map (fun n => n.id) := hgood.2.1 m hm_nodes d hd
    simp only [List.mem_map] at hd_exists
    obtain ⟨m2, hm2_nodes, hm2_id⟩ := hd_exists
    refine ⟨m2, (hM_mem m2).mpr ⟨hm2_nodes, by rw [hm2_id]; exact hdnot⟩, ?_⟩
    exact ⟨m, hm_nodes, rfl, hm2_id ▸ hd⟩
  choose f hfM hfE using hstep
  obtain ⟨n0, hn0⟩ := hM_ne
  let G : Nat → {x : WorkflowNode // x ∈ M} := fun k =>
    Nat.rec ⟨n0, hn0⟩ (fun _ p => ⟨f p.1 p.2, hfM p.1 p.2⟩) k
  have hGsucc : ∀ k, (G (k + 1)).1 = f (G k).1 (G k).2 := fun k => rfl
  have hGedge : ∀ k, wfEdge w ((G (k + 1)).1).id ((G k).1).id := by
    intro k
    rw [hGsucc]
    exact hfE (G k).1 (G k).2
  have hchain : ∀ dlt i, Relation.TransGen (wfEdge w) ((G (i + dlt + 1)).1).id ((G i).1).id := by
    intro dlt
    induction dlt with
    | zero => intro i; exact Relation.TransGen.single (hGedge i)
    | succ dd ih =>
      intro i
      have hstep2 : wfEdge w ((G (i + (dd + 1) + 1)).1).id ((G (i + dd + 1)).1).id := by
        have := hGedge (i + dd + 1)
        convert this using 3
      exact Relation.TransGen.head hstep2 (ih i)
  -- pigeonhole on the ids of the sequence
  set t := ((M.map (fun n => n.id)).toFinset : Finset String) with ht
  have hmaps : ∀ k ∈ Finset.range (t.card + 1), ((G k).1).id ∈ t := by
    intro k _
    rw [ht]
    simp only [List.mem_toFinset, List.mem_map]
    exact ⟨(G k).1, (G k).2, rfl⟩
  obtain ⟨i, hi, j, hj, hij, heq⟩ :=
    Finset.exists_ne_map_eq_of_card_lt_of_maps_to (by simp) hmaps
  rcases Nat.lt_or_ge i j with hlt2 | hge
  · obtain ⟨dlt, rfl⟩ : ∃ dlt, j = i + dlt + 1 := ⟨j - i - 1, by omega⟩
    exact hacyc ⟨((G i).1).id, heq ▸ hchain dlt i⟩
  · have hlt2 : j < i := by omega
    obtain ⟨dlt, rfl⟩ : ∃ dlt, i = j + dlt + 1 := ⟨i - j - 1, by omega⟩
    exact hacyc ⟨((G j).1).id, heq ▸ hchain dlt j⟩

theorem indexOf_lt_of_mem_take {l : List String} {a : String} :
    ∀ {j : Nat}, a ∈ l.take j → l.indexOf a < j := by
  induction l with
  | nil => intro j h; simp at h
  | cons x xs ih =>
    intro j h
    match j with
    | 0 => simp at h
    | k + 1 =>
      by_cases hax : a = x
      · subst hax
        rw [List.indexOf_cons_self]
        omega
      · have h2 : a ∈ xs.take k := by
          have : (x :: xs).take (k + 1) = x :: xs.take k := rfl
          rw [this] at h
          rcases List.mem_cons.mp h with heq | hmem
          · exact absurd heq hax
          · exact hmem
        rw [List.indexOf_cons_ne xs (Ne.symm hax)]
        have := ih h2
        omega

theorem kahn_stuck {w : WorkflowDefinition} (hgood : GoodGraph w)
    (hcyc : ∃ x, Relation.TransGen (wfEdge w) x x) :
    (kahnRun w).length ≠ w.nodes.length := by
  obtain ⟨hsub, hnodup, horder, _⟩ := kahn_final_spec hgood
  intro heq
  have hperm : (kahnRun w).Perm w.nodes :=
    (List.subperm_of_subset (List.Nodup.of_map _ hnodup) hsub).perm_of_length_le
      (le_of_eq heq.symm)
  have hall : ∀ n ∈ w.nodes, n ∈ kahnRun w := fun n hn => hperm.mem_iff.mpr hn
  have hedge_pos : ∀ a b, wfEdge w a b →
      ((kahnRun w).map (fun n => n.id)).indexOf a
        < ((kahnRun w).map (fun n => n.id)).indexOf b := by
    intro a b hE
    obtain ⟨n, hn_nodes, hn_id, ha_dep⟩ := hE
    obtain ⟨j, hj⟩ := List.mem_iff_get.mp (hall n hn_nodes)
    have hd := horder j a (by rw [hj]; exact ha_dep)
    rw [List.map_take] at hd
    have hlt : ((kahnRun w).map (fun n => n.id)).indexOf a < (j : Nat) :=
      indexOf_lt_of_mem_take hd
    have hjlt : (j : Nat) < ((kahnRun w).map (fun n => n.id)).length := by
      simp
    have hget : ((kahnRun w).map (fun n => n.id)).get ⟨(j : Nat), hjlt⟩ = n.id := by
      rw [List.get_map]
      congr 1
    have hb : ((kahnRun w).map (fun n => n.id)).indexOf b = (j : Nat) := by
      rw [← hn_id, ← hget]
      exact List.get_indexOf hnodup _
    omega
  have hmono : ∀ a b, Relation.TransGen (wfEdge w) a b →
      ((kahnRun w).map (fun n => n.id)).indexOf a
        < ((kahnRun w).map (fun n => n.id)).indexOf b := by
    intro a b hab
    induction hab with
    | single h => exact hedge_pos _ _ h
    | tail _ h ih => exact lt_trans ih (hedge_pos _ _ h)
  obtain ⟨x, hx⟩ := hcyc
  exact absurd (hmono x x hx) (lt_irrefl _)

/-- C3 (amended): for every workflow whose node ids are unique, whose
dependencies all exist and whose `depends_on` lists are duplicate-free,
`topological_sort` of an acyclic dependency graph returns a permutation of
the nodes in which every dependency appears strictly before its dependent,
and of a cyclic graph returns the circular-dependency error. -/
theorem spec_c3_topological_sort :
    (∀ w : WorkflowDefinition, GoodGraph w →
      (¬ ∃ x, Relation.TransGen (wfEdge w) x x) →
      ∃ result, w.topological_sort = .ok result ∧ result.Perm w.nodes ∧
        ∀ j : Fin result.length, ∀ d ∈ (result.get j).depends_on,
          ∃ i : Fin result.length, (i : Nat) < (j : Nat) ∧ (result.get i).id = d) ∧
    (∀ w : WorkflowDefinition, GoodGraph w →
      (∃ x, Relation.TransGen (wfEdge w) x x) →
      w.topological_sort = .error "Circular dependency detected in workflow") := by
  constructor
  · intro w hgood hacyc
    have hlen := kahn_complete hgood hacyc
    obtain ⟨hsub, hnodup, horder, _⟩ := kahn_final_spec hgood
    refine ⟨kahnRun w, ?_, ?_, ?_⟩
    · rw [topological_sort_eq, if_neg (by omega)]
    · exact (List.subperm_of_subset (List.Nodup.of_map _ hnodup) hsub).perm_of_length_le
        (le_of_eq hlen.symm)
    · intro j d hd
      have hd2 := horder j d hd
      rw [List.map_take] at hd2
      have hlt := indexOf_lt_of_mem_take hd2
      have hmem : d ∈ (kahnRun w).map (fun n => n.id) := List.mem_of_mem_take hd2
      have hidx_len : ((kahnRun w).map (fun n => n.id)).indexOf d
          < ((kahnRun w).map (fun n => n.id)).length := List.indexOf_lt_length.mpr hmem
      have hfin : ((kahnRun w).map (fun n => n.id)).indexOf d < (kahnRun w).length := by
        simpa using hidx_len
      refine ⟨⟨((kahnRun w).map (fun n => n.id)).indexOf d, hfin⟩, hlt, ?_⟩
      have hget := List.indexOf_get hidx_len
      rw [List.get_map] at hget
      exact hget
  · intro w hgood hcyc
    rw [topological_sort_eq, if_pos (kahn_stuck hgood hcyc)]

theorem wChain_edge_cases {x y : String} (h : wfEdge wChain x y) :
    (x = "a" ∧ y = "c") ∨ (x = "b" ∧ y = "c") ∨ (x = "a" ∧ y = "b") := by
  obtain ⟨n, hn, hid, hx⟩ := h
  simp only [wChain] at hn
  rcases List.mem_cons.mp hn with rfl | hn2
  · simp only at hid hx
    rcases List.mem_cons.mp hx with rfl | hx2
    · exact Or.inl ⟨rfl, hid.symm⟩
    · rcases List.mem_cons.mp hx2 with rfl | hx3
      · exact Or.inr (Or.inl ⟨rfl, hid.symm⟩)
      · cases hx3
  · rcases List.mem_cons.mp hn2 with rfl | hn3
    · simp only at hid hx
      rcases List.mem_cons.mp hx with rfl | hx2
      · exact Or.inr (Or.inr ⟨rfl, hid.symm⟩)
      · cases hx2
    · rcases List.mem_cons.mp hn3 with rfl | hn4
      · simp only at hid hx
        cases hx
      · cases hn4

theorem wChain_acyclic : ¬ ∃ x, Relation.TransGen (wfEdge wChain) x x := by
  have hmono : ∀ x y, Relation.TransGen (wfEdge wChain) x y →
      (if x = "c" then 2 else if x = "b" then 1 else (0 : Nat))
        < (if y = "c" then 2 else if y = "b" then 1 else (0 : Nat)) := by
    intro x y h
    induction h with
    | single he =>
      rcases wChain_edge_cases he with ⟨h1, h2⟩ | ⟨h1, h2⟩ | ⟨h1, h2⟩ <;> subst h1 <;> subst h2 <;>
        decide
    | tail _ he ih =>
      rcases wChain_edge_cases he with ⟨h1, h2⟩ | ⟨h1, h2⟩ | ⟨h1, h2⟩ <;> subst h1 <;> subst h2 <;>
        exact lt_trans ih (by decide)
  rintro ⟨x, hx⟩
  exact absurd (hmono x x hx) (lt_irrefl _)

theorem wCycle_has_cycle : ∃ x, Relation.TransGen (wfEdge wCycle) x x := by
  have h1 : wfEdge wCycle "a" "b" :=
    ⟨{ id := "b", type := "log", depends_on := ["a"] },
      List.mem_cons_of_mem _ (List.mem_cons_self _ _), rfl, by simp⟩
  have h2 : wfEdge wCycle "b" "a" :=
    ⟨{ id := "a", type := "log", depends_on := ["b"] }, List.mem_cons_self _ _, rfl, by simp⟩
  exact ⟨"a", Relation.TransGen.trans (Relation.TransGen.single h1)
    (Relation.TransGen.single h2)⟩

theorem wDupDeps_acyclic : ¬ ∃ x, Relation.TransGen (wfEdge wDupDeps) x x := by
  have hedge : ∀ x y, wfEdge wDupDeps x y → x = "a" ∧ y = "b" := by
    intro x y h
    obtain ⟨n, hn, hid, hx⟩ := h
    simp only [wDupDeps] at hn
    rcases List.mem_cons.mp hn with rfl | hn2
    · simp only at hx
      cases hx
    · rcases List.mem_cons.mp hn2 with rfl | hn3
      · simp only at hid hx
        rcases List.mem_cons.mp hx with rfl | hx2
        · exact ⟨rfl, hid.symm⟩
        · rcases List.mem_cons.mp hx2 with rfl | hx3
          · exact ⟨rfl, hid.symm⟩
          · cases hx3
      · cases hn3
  have hmono : ∀ x y, Relation.TransGen (wfEdge wDupDeps) x y → x = "a" ∧ y = "b" := by
    intro x y h
    induction h with
    | single he => exact hedge _ _ he
    | tail _ he ih =>
      obtain ⟨h1, h2⟩ := hedge _ _ he
      exact ⟨ih.1, h2⟩
  rintro ⟨x, hx⟩
  obtain ⟨h1, h2⟩ := hmono x x hx
  rw [h1] at h2
  exact absurd h2 (by decide)

/-- C3 witness: the sorting theorem evaluated on the concrete acyclic
workflow `wChain` and the concrete cyclic workflow `wCycle`. -/
theorem spec_c3_witness :
    (∃ result, wChain.topological_sort = .ok result ∧ result.Perm wChain.nodes ∧
      ∀ j : Fin result.length, ∀ d ∈ (result.get j).depends_on,
        ∃ i : Fin result.length, (i : Nat) < (j : Nat) ∧ (result.get i).id = d) ∧
    wCycle.topological_sort = .error "Circular dependency detected in workflow" :=
  ⟨spec_c3_topological_sort.1 wChain (by refine ⟨by decide, ?_, ?_⟩ <;> decide) wChain_acyclic,
   spec_c3_topological_sort.2 wCycle (by refine ⟨by decide, ?_, ?_⟩ <;> decide) wCycle_has_cycle⟩

/-- C3 counterexample: `wDupDeps` is acyclic (its only edge is a -> b) yet
`topological_sort` reports a circular dependency, because `b` lists its
dependency `a` twice and the loop decrements an in-degree at most once per
popped node — so the claim over all acyclic graphs fails as stated. -/
theorem spec_c3_duplicate_dep_counterexample :
    (¬ ∃ x, Relation.TransGen (wfEdge wDupDeps) x x) ∧
    wDupDeps.topological_sort = .error "Circular dependency detected in workflow" :=
  ⟨wDupDeps_acyclic, rfl⟩

theorem setResult_mem {acc : List (String × NodeResult)} {k : String} {v : NodeResult}
    {e : String × NodeResult} (he : e ∈ setResult acc k v) : e ∈ acc ∨ e = (k, v) := by
  unfold setResult at he
  split at he
  · rcases List.mem_map.mp he with ⟨e2, he2, heq⟩
    by_cases hk : e2.1 = k
    · right
      rw [← heq]
      simp [hk]
    · left
      rw [← heq]
      simpa [hk] using he2
  · rcases List.mem_append.mp he with h | h
    · exact Or.inl h
    · right
      simpa using h

theorem execLoop_statuses (o : Oracle) (w : WorkflowDefinition) :
    ∀ sorted ctx acc,
      (∀ e ∈ acc, e.2.status = "success" ∨ e.2.status = "failed" ∨ e.2.status = "skipped") →
      ∀ e ∈ (execLoop o w sorted ctx acc).1,
        e.2.status = "success" ∨ e.2.status = "failed" ∨ e.2.status = "skipped" := by
  intro sorted
  induction sorted with
  | nil => intro ctx acc hacc e he; exact hacc e he
  | cons node rest ih =>
    intro ctx acc hacc e he
    rw [execLoop] at he
    split at he
    · refine ih _ _ ?_ e he
      intro e2 he2
      rcases setResult_mem he2 with h | h
      · exact hacc e2 h
      · rw [h]
        right; right; rfl
    · split at he
      · refine ih _ _ ?_ e he
        intro e2 he2
        rcases setResult_mem he2 with h | h
        · exact hacc e2 h
        · rw [h]
          left; rfl
      · split at he
        · refine ih _ _ ?_ e he
          intro e2 he2
          rcases setResult_mem he2 with h | h
          · exact hacc e2 h
          · rw [h]
            right; left; rfl
        · simp only at he
          rcases setResult_mem he with h | h
          · exact hacc e h
          · rw [h]
            right; left; rfl

theorem validate_ok_sort {w : WorkflowDefinition}
    (h : (SimpleWorkflowExecutor.validate w).is_valid = true) :
    ∃ sorted, w.topological_sort = .ok sorted := by
  unfold SimpleWorkflowExecutor.validate at h
  simp only [List.isEmpty_eq_true, List.append_eq_nil] at h
  match hs : w.topological_sort with
  | .ok sorted => exact ⟨sorted, rfl⟩
  | .error e =>
    rw [hs] at h
    simp at h

/-- C1 (amended): a run whose validation fails is reported `failed`; for a
validated run the aggregate status is `success` exactly when every recorded
node result succeeded, `failed` exactly when some recorded result failed
(regardless of `on_error`), and `partial` exactly when some node was skipped
and none failed.  A node failure with `on_error = continue` therefore yields
`failed`, not `partial`. -/
theorem spec_c1_run_status (o : Oracle) (w : WorkflowDefinition)
    (initial : List (String × PyValue)) :
    ((SimpleWorkflowExecutor.validate w).is_valid = false →
      (SimpleWorkflowExecutor.execute o w initial).status = "failed") ∧
    ((SimpleWorkflowExecutor.validate w).is_valid = true →
      (((SimpleWorkflowExecutor.execute o w initial).status = "success") ↔
        (∀ e ∈ (SimpleWorkflowExecutor.execute o w initial).node_results,
          e.2.status = "success")) ∧
      (((SimpleWorkflowExecutor.execute o w initial).status = "failed") ↔
        (∃ e ∈ (SimpleWorkflowExecutor.execute o w initial).node_results,
          e.2.status = "failed")) ∧
      (((SimpleWorkflowExecutor.execute o w initial).status = "partial") ↔
        ((∃ e ∈ (SimpleWorkflowExecutor.execute o w initial).node_results,
            e.2.status = "skipped") ∧
          ¬ ∃ e ∈ (SimpleWorkflowExecutor.execute o w initial).node_results,
            e.2.status = "failed"))) := by
  by_cases hv : (SimpleWorkflowExecutor.validate w).is_valid = true
  · obtain ⟨sorted, hs⟩ := validate_ok_sort hv
    have hexec : SimpleWorkflowExecutor.execute o w initial
        = { status :=
              if (execLoop o w sorted
                    { vars := dictMerge w.vars initial, node_results := [] } []).1.all
                  (fun e => e.2.status = "success") then "success"
              else if (execLoop o w sorted
                    { vars := dictMerge w.vars initial, node_results := [] } []).1.any
                  (fun e => e.2.status = "failed") then "failed"
              else "partial",
            node_results := (execLoop o w sorted
              { vars := dictMerge w.vars initial, node_results := [] } []).1,
            error := Option.none } := by
      unfold SimpleWorkflowExecutor.execute
      simp only [hv, hs, Bool.not_true, Bool.false_eq_true, if_false]
    constructor
    · intro hv2
      rw [hv] at hv2
      cases hv2
    · intro _
      have hmem := execLoop_statuses o w sorted
        { vars := dictMerge w.vars initial, node_results := [] } [] (by intro e he; cases he)
      rw [hexec]
      set results := (execLoop o w sorted
        { vars := dictMerge w.vars initial, node_results := [] } []).1 with hres
      by_cases hall : results.all (fun e => e.2.status = "success") = true
      · rw [hall]
        simp only [if_true]
        rw [List.all_eq_true] at hall
        refine ⟨?_, ?_, ?_⟩
        · simp only [true_iff]
          intro e he
          simpa using hall e he
        · constructor
          · intro h; exact absurd h (by decide)
          · rintro ⟨e, he, hst⟩
            have := hall e he
            simp only [decide_eq_true_eq] at this
            rw [hst] at this
            exact absurd this (by decide)
        · constructor
          · intro h; exact absurd h (by decide)
          · rintro ⟨⟨e, he, hst⟩, _⟩
            have := hall e he
            simp only [decide_eq_true_eq] at this
            rw [hst] at this
            exact absurd this (by decide)
      · rw [Bool.not_eq_true] at hall
        rw [hall]
        simp only [Bool.false_eq_true, if_false]
        by_cases hfail : results.any (fun e => e.2.status = "failed") = true
        · rw [hfail]
          simp only [if_true]
          rw [List.any_eq_true] at hfail
          obtain ⟨e, he, hst⟩ := hfail
          simp only [decide_eq_true_eq] at hst
          refine ⟨?_, ?_, ?_⟩
          · constructor
            · intro h; exact absurd h (by decide)
            · intro hallp
              have := hallp e he
              rw [hst] at this
              exact absurd this (by decide)
          · simp only [true_iff]
            exact ⟨e, he, hst⟩
          · constructor
            · intro h; exact absurd h (by decide)
            · rintro ⟨_, hnof⟩
              exact absurd ⟨e, he, hst⟩ hnof
        · rw [Bool.not_eq_true] at hfail
          rw [hfail]
          simp only [Bool.false_eq_true, if_false]
          have hnof : ¬ ∃ e ∈ results, e.2.status = "failed" := by
            rintro ⟨e, he, hst⟩
            have : results.any (fun e => e.2.status = "failed") = true :=
              List.any_eq_true.mpr ⟨e, he, by simp [hst]⟩
            rw [hfail] at this
            cases this
          have hnall : ¬ ∀ e ∈ results, e.2.status = "success" := by
            intro hallp
            have : results.all (fun e => e.2.status = "success") = true :=
              List.all_eq_true.mpr (fun e he => by simp [hallp e he])
            rw [hall] at this
            cases this
          push_neg at hnall
          obtain ⟨e, he, hst⟩ := hnall
          have hskip : e.2.status = "skipped" := by
            rcases hmem e he with h | h | h
            · exact absurd h hst
            · exact absurd ⟨e, he, h⟩ hnof
            · exact h
          refine ⟨?_, ?_, ?_⟩
          · constructor
            · intro h; exact absurd h (by decide)
            · intro hallp
              have := hallp e he
              exact absurd this hst
          · constructor
            · intro h; exact absurd h (by decide)
            · intro hex
              exact absurd hex hnof
          · simp only [true_iff]
            exact ⟨⟨e, he, hskip⟩, hnof⟩
  · rw [Bool.not_eq_true] at hv
    constructor
    · intro _
      simp [SimpleWorkflowExecutor.execute, hv]
    · intro hv2
      rw [hv] at hv2
      cases hv2

theorem lookup_map_found {es : List (String × NodeResult)} {k : String} {v : NodeResult}
    (hany : es.any (fun e => e.1 = k) = true) :
    (es.map (fun e => if e.1 = k then (k, v) else e)).lookup k = some v := by
  induction es with
  | nil => simp at hany
  | cons e es ih =>
    simp only [List.any_cons, Bool.or_eq_true, decide_eq_true_eq] at hany
    by_cases hek : e.1 = k
    · rw [List.map_cons, if_pos hek]
      simp [List.lookup]
    · have hes : es.any (fun e => e.1 = k) = true := by
        rcases hany with h | h
        · exact absurd h hek
        · exact h
      rw [List.map_cons, if_neg hek]
      have hke : (k == e.1) = false := by
        simp only [beq_eq_false_iff_ne, ne_eq]
        exact fun hh => hek hh.symm
      simp only [List.lookup, hke]
      exact ih hes

theorem lookup_map_ne {es : List (String × NodeResult)} {k nid : String} {v : NodeResult}
    (h : nid ≠ k) :
    (es.map (fun e => if e.1 = k then (k, v) else e)).lookup nid = es.lookup nid := by
  induction es with
  | nil => rfl
  | cons e es ih =>
    by_cases hek : e.1 = k
    · rw [List.map_cons, if_pos hek]
      have h1 : (nid == k) = false := by simpa using h
      have h2 : (nid == e.1) = false := by simp [hek, h]
      simp only [List.lookup, h1, h2]
      exact ih
    · rw [List.map_cons, if_neg hek]
      simp only [List.lookup]
      cases hbe : (nid == e.1) <;> simp [ih]

theorem lookup_none_of_not_any {es : List (String × NodeResult)} {k : String}
    (h : es.any (fun e => e.1 = k) = false) : es.lookup k = Option.none := by
  induction es with
  | nil => rfl
  | cons e es ih =>
    simp only [List.any_cons, Bool.or_eq_false_iff, decide_eq_false_iff_not] at h
    simp only [List.lookup]
    have : (k == e.1) = false := by
      simp only [beq_eq_false_iff_ne, ne_eq]
      exact fun hh => h.1 hh.symm
    simp only [this]
    exact ih (by simpa using h.2)

theorem setResult_lookup (acc : List (String × NodeResult)) (k : String) (v : NodeResult)
    (nid : String) :
    (setResult acc k v).lookup nid = if nid = k then some v else acc.lookup nid := by
  unfold setResult
  split
  next hany =>
    by_cases hnk : nid = k
    · subst hnk
      rw [if_pos rfl]
      exact lookup_map_found hany
    · rw [if_neg hnk]
      exact lookup_map_ne hnk
  next hany =>
    rw [List.lookup_append]
    by_cases hnk : nid = k
    · subst hnk
      rw [if_pos rfl, lookup_none_of_not_any (Bool.of_not_eq_true hany)]
      simp [List.lookup]
    · rw [if_neg hnk]
      have hl : ([(k, v)].lookup nid) = Option.none := by
        have hbe : (nid == k) = false := by simpa using hnk
        simp [List.lookup, hbe]
      rw [hl]
      cases acc.lookup nid <;> rfl

theorem execLoop_skipped (o : Oracle) (w : WorkflowDefinition) :
    ∀ sorted ctx acc nid r,
      (execLoop o w sorted ctx acc).1.lookup nid = some r → r.status = "skipped" →
      (acc.lookup nid = some r) ∨
      (∃ node ctx2, node ∈ sorted ∧ node.id = nid ∧
        SimpleWorkflowExecutor.should_execute_node o node ctx2 = false ∧
        r = { node_id := node.id, status := "skipped", output := .none,
              error := Option.none }) := by
  intro sorted
  induction sorted with
  | nil => intro ctx acc nid r hl _; exact Or.inl hl
  | cons node rest ih =>
    intro ctx acc nid r hl hst
    rw [execLoop] at hl
    split at hl
    next hskip =>
      rcases ih _ _ nid r hl hst with h | ⟨n2, c2, hmem, hnid, hse, hr⟩
      · rw [setResult_lookup] at h
        split at h
        next heq =>
          right
          rw [Option.some.injEq] at h
          refine ⟨node, ctx, List.mem_cons_self _ _, heq.symm, ?_, h.symm⟩
          simpa using hskip
        next => exact Or.inl h
      · exact Or.inr ⟨n2, c2, List.mem_cons_of_mem _ hmem, hnid, hse, hr⟩
    next hexecn =>
      split at hl
      next out hok =>
        rcases ih _ _ nid r hl hst with h | ⟨n2, c2, hmem, hnid, hse, hr⟩
        · rw [setResult_lookup] at h
          split at h
          next heq =>
            rw [Option.some.injEq] at h
            rw [← h] at hst
            exact absurd hst (by simp)
          next => exact Or.inl h
        · exact Or.inr ⟨n2, c2, List.mem_cons_of_mem _ hmem, hnid, hse, hr⟩
      next e herr =>
        split at hl
        next hcont =>
          rcases ih _ _ nid r hl hst with h | ⟨n2, c2, hmem, hnid, hse, hr⟩
          · rw [setResult_lookup] at h
            split at h
            next heq =>
              rw [Option.some.injEq] at h
              rw [← h] at hst
              exact absurd hst (by simp)
            next => exact Or.inl h
          · exact Or.inr ⟨n2, c2, List.mem_cons_of_mem _ hmem, hnid, hse, hr⟩
        next =>
          simp only at hl
          rw [setResult_lookup] at hl
          split at hl
          next heq =>
            rw [Option.some.injEq] at hl
            rw [← hl] at hst
            exact absurd hst (by simp)
          next => exact Or.inl hl

/-- C7: a condition whose resolution raises, or whose `eval` raises,
never causes a skip — `_should_execute_node` returns true; it returns false
only when the condition resolved and evaluated to a falsy value; every
skipped record produced by the execution loop stems from such a false
verdict, and the skip step stores `None` under the node’s id in the context
while recording a skipped result. -/
theorem spec_c7_condition_eval :
    (∀ (o : Oracle) (node : WorkflowNode) (ctx : ExecutionContext) (c : String) (e : PyErr),
      node.condition = some c → c ≠ "" →
      resolve_variables ctx [("expr", PyValue.str c)] = .error e →
      SimpleWorkflowExecutor.should_execute_node o node ctx = true) ∧
    (∀ (o : Oracle) (node : WorkflowNode) (ctx : ExecutionContext) (c : String)
        (rc : List (String × PyValue)) (s : String) (e : PyErr),
      node.condition = some c → c ≠ "" →
      resolve_variables ctx [("expr", PyValue.str c)] = .ok rc →
      dictGet rc "expr" PyValue.none = .str s → o.evalTop s = .error e →
      SimpleWorkflowExecutor.should_execute_node o node ctx = true) ∧
    (∀ (o : Oracle) (node : WorkflowNode) (ctx : ExecutionContext),
      SimpleWorkflowExecutor.should_execute_node o node ctx = false →
      ∃ c rc s v, node.condition = some c ∧ c ≠ "" ∧
        resolve_variables ctx [("expr", PyValue.str c)] = .ok rc ∧
        dictGet rc "expr" PyValue.none = .str s ∧
        o.evalTop s = .ok v ∧ pyTruthy v = false) ∧
    (∀ (o : Oracle) (w : WorkflowDefinition) (sorted : List WorkflowNode)
        (ctx : ExecutionContext) (nid : String) (r : NodeResult),
      (execLoop o w sorted ctx []).1.lookup nid = some r → r.status = "skipped" →
      ∃ node ctx2, node ∈ sorted ∧ node.id = nid ∧
        SimpleWorkflowExecutor.should_execute_node o node ctx2 = false ∧
        r = { node_id := node.id, status := "skipped", output := PyValue.none,
              error := Option.none }) ∧
    (∀ (o : Oracle) (w : WorkflowDefinition) (node : WorkflowNode) (rest : List WorkflowNode)
        (ctx : ExecutionContext) (acc : List (String × NodeResult)),
      SimpleWorkflowExecutor.should_execute_node o node ctx = false →
      execLoop o w (node :: rest) ctx acc
        = execLoop o w rest
            { ctx with node_results := dictSet ctx.node_results node.id PyValue.none }
            (setResult acc node.id
              { node_id := node.id, status := "skipped", output := PyValue.none,
                error := Option.none })) := by
  refine ⟨?_, ?_, ?_, ?_, ?_⟩
  · intro o node ctx c e hcond hne hres
    unfold SimpleWorkflowExecutor.should_execute_node
    rw [hcond]
    simp only [if_neg hne, hres]
  · intro o node ctx c rc s e hcond hne hres hdg heval
    unfold SimpleWorkflowExecutor.should_execute_node
    rw [hcond]
    simp only [if_neg hne, hres, hdg, heval]
  · intro o node ctx h
    unfold SimpleWorkflowExecutor.should_execute_node at h
    split at h
    next => exact Bool.noConfusion h
    next c hcond =>
      split at h
      next => exact Bool.noConfusion h
      next hce =>
        split at h
        next e hres => exact Bool.noConfusion h
        next rc hres =>
          split at h
          next s hdg =>
            split at h
            next v heval => exact ⟨c, rc, s, v, hcond, hce, hres, hdg, heval, h⟩
            next e heval => exact Bool.noConfusion h
          next hdg => exact Bool.noConfusion h
  · intro o w sorted ctx nid r hl hst
    rcases execLoop_skipped o w sorted ctx [] nid r hl hst with h | ⟨node, ctx2, hmem, hnid, hse, hr⟩
    · cases h
    · exact ⟨node, ctx2, hmem, hnid, hse, hr⟩
  · intro o w node rest ctx acc hse
    rw [execLoop]
    rw [hse]
    rfl

theorem matchAt_cons_ne {c : Char} {cs : List Char} (h : c ≠ '\x7b') :
    matchAt (c :: cs) = Option.none := by
  rw [matchAt.eq_def]
  split
  next heq =>
    rw [List.cons.injEq] at heq
    exact absurd heq.1 h
  next => rfl

theorem takeWhile_ne_append {p suf : List Char} (h : '\x7d' ∉ p) :
    (p ++ '\x7d' :: suf).takeWhile (· ≠ '\x7d') = p := by
  induction p with
  | nil => simp [List.takeWhile_cons]
  | cons c cs ih =>
    simp only [List.mem_cons, not_or] at h
    rw [List.cons_append, List.takeWhile_cons]
    rw [show (decide (c ≠ '\x7d') : Bool) = true by
      simp only [decide_eq_true_eq]
      exact fun hh => h.1 hh.symm]
    rw [if_pos rfl, ih h.2]

theorem dropWhile_ne_append {p suf : List Char} (h : '\x7d' ∉ p) :
    (p ++ '\x7d' :: suf).dropWhile (· ≠ '\x7d') = '\x7d' :: suf := by
  induction p with
  | nil => simp [List.dropWhile_cons]
  | cons c cs ih =>
    simp only [List.mem_cons, not_or] at h
    rw [List.cons_append, List.dropWhile_cons]
    rw [show (decide (c ≠ '\x7d') : Bool) = true by
      simp only [decide_eq_true_eq]
      exact fun hh => h.1 hh.symm]
    rw [if_pos rfl, ih h.2]

theorem matchAt_template {p suf : List Char} (hnb : '\x7d' ∉ p) (hne : p ≠ []) :
    matchAt ('\x7b' :: '\x7b' :: (p ++ '\x7d' :: '\x7d' :: suf)) = some (p, suf) := by
  simp only [matchAt]
  rw [takeWhile_ne_append hnb, dropWhile_ne_append hnb]
  rw [show p.isEmpty = false by simpa using hne]
  simp

theorem dropWhile_eq_self_head {l : List Char} (h : l.dropWhile isPySpace = l) (hne : l ≠ []) :
    isPySpace l.headI = false := by
  match l, hne with
  | c :: cs, _ =>
    by_cases hc : isPySpace c
    · rw [List.dropWhile_cons] at h
      rw [if_pos hc] at h
      have hlen : (cs.dropWhile isPySpace).length ≤ cs.length :=
        (List.dropWhile_sublist _).length_le
      rw [h] at hlen
      simp at hlen
    · simpa using hc

theorem stripChars_eq_self_parts {l : List Char} (h : stripChars l = l) :
    l.dropWhile isPySpace = l ∧ l.reverse.dropWhile isPySpace = l.reverse := by
  unfold stripChars at h
  have h1 : (l.dropWhile isPySpace).length ≤ l.length := (List.dropWhile_sublist _).length_le
  have h2 : ((l.dropWhile isPySpace).reverse.dropWhile isPySpace).length
      ≤ (l.dropWhile isPySpace).reverse.length := (List.dropWhile_sublist _).length_le
  have hlen : (((l.dropWhile isPySpace).reverse.dropWhile isPySpace).reverse).length = l.length := by
    rw [h]
  simp only [List.length_reverse] at hlen h2
  have hdlen : (l.dropWhile isPySpace).length = l.length := by omega
  have hdrop : l.dropWhile isPySpace = l :=
    (List.dropWhile_sublist _).eq_of_length hdlen
  constructor
  · exact hdrop
  · rw [hdrop] at h
    have : (l.reverse.dropWhile isPySpace).reverse = l := h
    have hh : l.reverse.dropWhile isPySpace = l.reverse := by
      rw [← List.reverse_reverse (l.reverse.dropWhile isPySpace), this]
    exact hh

theorem dropWhile_spaces {ld rest : List Char} (hld : ∀ c ∈ ld, isPySpace c)
    (hrne : rest ≠ []) (hrest : isPySpace rest.headI = false) :
    (ld ++ rest).dropWhile isPySpace = rest := by
  induction ld with
  | nil =>
    simp only [List.nil_append]
    match rest, hrne with
    | c :: cs, _ =>
      rw [List.dropWhile_cons]
      have hc : isPySpace c = false := by simpa using hrest
      rw [hc]
      simp
  | cons c cs ih =>
    rw [List.cons_append, List.dropWhile_cons, hld c (by simp)]
    simp only [if_true]
    exact ih (fun c2 hc2 => hld c2 (by simp [hc2]))

theorem headI_append {f t : List Char} (h : f ≠ []) : (f ++ t).headI = f.headI := by
  match f, h with
  | c :: cs, _ => rfl

theorem stripChars_pad {lead trail f : List Char}
    (hlead : ∀ c ∈ lead, isPySpace c) (htrail : ∀ c ∈ trail, isPySpace c)
    (hf : stripChars f = f) (hfne : f ≠ []) :
    stripChars (lead ++ f ++ trail) = f := by
  obtain ⟨hd, hr⟩ := stripChars_eq_self_parts hf
  have hhead : isPySpace f.headI = false := dropWhile_eq_self_head hd hfne
  have hrevne : f.reverse ≠ [] := by simpa using hfne
  have hlast : isPySpace f.reverse.headI = false := dropWhile_eq_self_head hr hrevne
  unfold stripChars
  rw [List.append_assoc, dropWhile_spaces hlead (by simp [hfne]) (by rw [headI_append hfne]; exact hhead)]
  rw [List.reverse_append]
  rw [dropWhile_spaces (by intro c hc; exact htrail c (by simpa using hc)) hrevne hlast]
  simp

theorem splitChars_no_sep {sep : Char} {a : List Char} (h : sep ∉ a) :
    splitChars sep a = [a] := by
  induction a with
  | nil => rfl
  | cons c cs ih =>
    simp only [List.mem_cons, not_or] at h
    rw [splitChars]
    rw [if_neg (fun hh => h.1 hh.symm)]
    rw [ih h.2]

theorem splitChars_append_sep {sep : Char} {a rest : List Char} (h : sep ∉ a) :
    splitChars sep (a ++ sep :: rest) = a :: splitChars sep rest := by
  induction a with
  | nil =>
    simp only [List.nil_append]
    rw [splitChars, if_pos rfl]
  | cons c cs ih =>
    simp only [List.mem_cons, not_or] at h
    rw [List.cons_append, splitChars]
    rw [if_neg (fun hh => h.1 hh.symm)]
    rw [ih h.2]

theorem splitChars_ne_nil {sep : Char} (a : List Char) : splitChars sep a ≠ [] := by
  induction a with
  | nil => simp [splitChars]
  | cons c cs ih =>
    rw [splitChars]
    split
    · simp
    · match hs : splitChars sep cs with
      | [] => exact absurd hs ih
      | p :: ps => simp

theorem hasTemplate_of_matchAt {cs : List Char} (hm : (matchAt cs).isSome = true) :
    ∀ pre : List Char, hasTemplate (pre ++ cs) = true := by
  intro pre
  induction pre with
  | nil =>
    match cs, hm with
    | [], hm => exact absurd hm (by simp [matchAt])
    | c :: cs2, hm =>
      simp only [List.nil_append, hasTemplate]
      rw [hm]
      simp
  | cons c pre2 ih =>
    rw [List.cons_append]
    simp only [hasTemplate]
    rw [ih]
    simp

theorem takeWhile_no_sep {sep : Char} {p suf : List Char} (h : sep ∉ p) :
    (p ++ sep :: suf).takeWhile (· ≠ sep) = p := by
  induction p with
  | nil => simp [List.takeWhile_cons]
  | cons c cs ih =>
    simp only [List.mem_cons, not_or] at h
    rw [List.cons_append, List.takeWhile_cons]
    rw [show (decide (c ≠ sep) : Bool) = true by
      simp only [decide_eq_true_eq]
      exact fun hh => h.1 hh.symm]
    rw [if_pos rfl, ih h.2]

theorem dropWhile_no_sep {sep : Char} {p suf : List Char} (h : sep ∉ p) :
    (p ++ sep :: suf).dropWhile (· ≠ sep) = sep :: suf := by
  induction p with
  | nil => simp [List.dropWhile_cons]
  | cons c cs ih =>
    simp only [List.mem_cons, not_or] at h
    rw [List.cons_append, List.dropWhile_cons]
    rw [show (decide (c ≠ sep) : Bool) = true by
      simp only [decide_eq_true_eq]
      exact fun hh => h.1 hh.symm]
    rw [if_pos rfl, ih h.2]

theorem pySplitOnce_eq {sep : Char} {a b : List Char} (h : sep ∉ a) :
    pySplitOnce sep ⟨a ++ sep :: b⟩ = some (⟨a⟩, ⟨b⟩) := by
  unfold pySplitOnce
  have hc : (a ++ sep :: b).contains sep = true := by
    simp
  rw [show (⟨a ++ sep :: b⟩ : String).data = a ++ sep :: b from rfl]
  rw [hc]
  rw [if_pos rfl]
  rw [takeWhile_no_sep h, dropWhile_no_sep h]
  rfl

theorem dropWhile_eq_self_of_head {l : List Char} (hne : l ≠ []) (h : isPySpace l.headI = false) :
    l.dropWhile isPySpace = l := by
  match l, hne with
  | c :: cs, _ =>
    rw [List.dropWhile_cons]
    have hc : isPySpace c = false := h
    rw [hc]
    simp

theorem stripChars_of_ends {l : List Char} (hne : l ≠ []) (hh : isPySpace l.headI = false)
    (hl : isPySpace l.reverse.headI = false) : stripChars l = l := by
  unfold stripChars
  rw [dropWhile_eq_self_of_head hne hh]
  rw [dropWhile_eq_self_of_head (by simpa using hne) hl]
  simp

theorem substLoopF_nil (ctx : ExecutionContext) (fuel : Nat) (unres : List String) :
    substLoopF ctx fuel [] unres = .ok ([], unres) := by
  match fuel with
  | 0 => rfl
  | f + 1 => rfl

theorem substLoopF_nobrace (ctx : ExecutionContext) {cs : List Char} (h : '\x7b' ∉ cs) :
    ∀ {fuel : Nat} {unres : List String}, cs.length ≤ fuel →
      substLoopF ctx fuel cs unres = .ok (cs, unres) := by
  induction cs with
  | nil =>
    intro fuel unres _
    exact substLoopF_nil ctx fuel unres
  | cons c cs2 ih =>
    intro fuel unres hf
    simp only [List.mem_cons, not_or] at h
    match fuel, hf with
    | f + 1, hf =>
      simp only [substLoopF]
      rw [matchAt_cons_ne (fun hh => h.1 hh.symm)]
      rw [ih h.2 (by simp only [List.length_cons] at hf; omega)]

theorem substLoopF_single (ctx : ExecutionContext) {p : List Char} {v : PyValue}
    {unres u2 : List String}
    (hp : '\x7d' ∉ p) (hpne : p ≠ [])
    (hres : resolve_variable_path ctx (pyStrip ⟨p⟩) unres = .ok (v, u2)) (hv : v ≠ .none) :
    ∀ {pre : List Char}, '\x7b' ∉ pre → ∀ {fuel : Nat}, pre.length + 1 ≤ fuel →
      substLoopF ctx fuel (pre ++ '\x7b' :: '\x7b' :: (p ++ ['\x7d', '\x7d'])) unres
        = .ok (pre ++ renderChars v, u2) := by
  intro pre
  induction pre with
  | nil =>
    intro _ fuel hf
    match fuel, hf with
    | f + 1, _ =>
      simp only [List.nil_append, substLoopF]
      rw [matchAt_template hp hpne]
      dsimp only
      rw [hres]
      dsimp only
      rw [substLoopF_nil]
      cases v with
      | none => exact absurd rfl hv
      | bool b => simp [renderChars]
      | int n => simp [renderChars]
      | str s => simp [renderChars]
      | list xs => simp [renderChars]
      | dict kvs => simp [renderChars]
  | cons c pre2 ih =>
    intro hpre fuel hf
    simp only [List.mem_cons, not_or] at hpre
    match fuel, hf with
    | f + 1, hf =>
      rw [List.cons_append]
      simp only [substLoopF]
      rw [matchAt_cons_ne (fun hh => hpre.1 hh.symm)]
      dsimp only
      rw [ih hpre.2 (by simp only [List.length_cons] at hf; omega)]
      rfl

theorem strMkData (s : String) : (⟨s.data⟩ : String) = s := rfl

theorem lookupWalk_nil (vp : String) (v : PyValue) (unres : List String) :
    lookupWalk vp v [] unres = (v, unres) := by
  cases v <;> rfl

theorem pySplitOnce_none {sep : Char} {s : String} (h : sep ∉ s.data) :
    pySplitOnce sep s = Option.none := by
  unfold pySplitOnce
  rw [show s.data.contains sep = false by simpa using h]
  simp

theorem resolveBasePath_found (ctx : ExecutionContext) {base : String} {v : PyValue}
    (unres : List String) (hdot : '.' ∉ base.data)
    (hnr : ctx.node_results.lookup base = some v) :
    resolveBasePath ctx base unres = (v, unres) := by
  unfold resolveBasePath
  unfold pySplit
  rw [splitChars_no_sep hdot]
  dsimp only [List.map, List.asString]
  rw [strMkData]
  rw [hnr]
  exact lookupWalk_nil base v unres

theorem resolveBasePath_unresolved (ctx : ExecutionContext) {base : String}
    (unres : List String) (hdot : '.' ∉ base.data)
    (hnr : ctx.node_results.lookup base = Option.none)
    (hvr : ctx.vars.lookup base = Option.none) :
    resolveBasePath ctx base unres = (.none, unres ++ [base]) := by
  unfold resolveBasePath
  unfold pySplit
  rw [splitChars_no_sep hdot]
  dsimp only [List.map, List.asString]
  rw [strMkData]
  rw [hnr, hvr]

theorem resolve_variable_path_bare (ctx : ExecutionContext) {base : String} {v : PyValue}
    (unres : List String) (hpipe : '|' ∉ base.data) (hdot : '.' ∉ base.data)
    (hnr : ctx.node_results.lookup base = some v) :
    resolve_variable_path ctx base unres = .ok (v, unres) := by
  unfold resolve_variable_path
  rw [pySplitOnce_none hpipe]
  dsimp only
  rw [resolveBasePath_found ctx unres hdot hnr]

theorem resolveString_native (ctx : ExecutionContext) {p : List Char} {v : PyValue}
    {unres u2 : List String} (hp : '\x7d' ∉ p) (hpne : p ≠ [])
    (hres : resolve_variable_path ctx (pyStrip ⟨p⟩) unres = .ok (v, u2)) (hv : v ≠ .none) :
    resolveString ctx ⟨'\x7b' :: '\x7b' :: (p ++ ['\x7d', '\x7d'])⟩ unres = .ok (v, u2) := by
  unfold resolveString
  rw [show (⟨'\x7b' :: '\x7b' :: (p ++ ['\x7d', '\x7d'])⟩ : String).data
      = '\x7b' :: '\x7b' :: (p ++ ['\x7d', '\x7d']) from rfl]
  rw [matchAt_template hp hpne]
  dsimp only
  rw [hres]
  dsimp only
  cases v with
  | none => exact absurd rfl hv
  | bool b => rfl
  | int n => rfl
  | str s => rfl
  | list xs => rfl
  | dict kvs => rfl

theorem resolveString_none (ctx : ExecutionContext) {p : List Char}
    {unres u2 : List String} (hp : '\x7d' ∉ p) (hpne : p ≠ [])
    (hres : resolve_variable_path ctx (pyStrip ⟨p⟩) unres = .ok (.none, u2)) :
    resolveString ctx ⟨'\x7b' :: '\x7b' :: (p ++ ['\x7d', '\x7d'])⟩ unres
      = .ok (.str ⟨'\x7b' :: '\x7b' :: (p ++ ['\x7d', '\x7d'])⟩, u2) := by
  unfold resolveString
  rw [show (⟨'\x7b' :: '\x7b' :: (p ++ ['\x7d', '\x7d'])⟩ : String).data
      = '\x7b' :: '\x7b' :: (p ++ ['\x7d', '\x7d']) from rfl]
  rw [matchAt_template hp hpne]
  dsimp only
  rw [hres]

theorem resolveString_mixed (ctx : ExecutionContext) {c : Char} {pre p : List Char} {v : PyValue}
    {unres u2 : List String} (hc : c ≠ '\x7b') (hpre : '\x7b' ∉ pre)
    (hp : '\x7d' ∉ p) (hpne : p ≠ [])
    (hres : resolve_variable_path ctx (pyStrip ⟨p⟩) unres = .ok (v, u2)) (hv : v ≠ .none) :
    resolveString ctx ⟨c :: (pre ++ '\x7b' :: '\x7b' :: (p ++ ['\x7d', '\x7d']))⟩ unres
      = .ok (.str ⟨c :: (pre ++ renderChars v)⟩, u2) := by
  unfold resolveString
  rw [show (⟨c :: (pre ++ '\x7b' :: '\x7b' :: (p ++ ['\x7d', '\x7d']))⟩ : String).data
      = c :: (pre ++ '\x7b' :: '\x7b' :: (p ++ ['\x7d', '\x7d'])) from rfl]
  rw [matchAt_cons_ne hc]
  dsimp only
  rw [show hasTemplate (c :: (pre ++ '\x7b' :: '\x7b' :: (p ++ ['\x7d', '\x7d']))) = true by
    have hm : (matchAt ('\x7b' :: '\x7b' :: (p ++ ['\x7d', '\x7d']))).isSome = true := by
      rw [matchAt_template hp hpne]; rfl
    exact hasTemplate_of_matchAt hm (c :: pre)]
  rw [if_pos rfl]
  unfold substLoop
  rw [show (c :: (pre ++ '\x7b' :: '\x7b' :: (p ++ ['\x7d', '\x7d'])))
      = (c :: pre) ++ '\x7b' :: '\x7b' :: (p ++ ['\x7d', '\x7d']) from rfl]
  rw [substLoopF_single ctx hp hpne hres hv
    (by
      intro hmem
      rcases List.mem_cons.1 hmem with h1 | h1
      · exact hc h1.symm
      · exact hpre h1)
    (by
      simp only [List.length_cons, List.length_append]
      have : 1 ≤ p.length := by
        match p, hpne with
        | q :: qs, _ => simp
      omega)]
  rfl

theorem apply_filter_congr {a b : String} (h : pyStrip a = pyStrip b) :
    ∀ v : PyValue, apply_filter v a = apply_filter v b := by
  intro v
  unfold apply_filter
  rw [h]

theorem stripChars_trailing_space {f : List Char} (hf : stripChars f = f) (hfne : f ≠ []) :
    stripChars (f ++ [' ']) = f := by
  have h := @stripChars_pad [] [' '] f (by simp)
    (by intro c hc; simp at hc; subst hc; decide) hf hfne
  simpa using h

theorem stripChars_leading_space {f : List Char} (hf : stripChars f = f) (hfne : f ≠ []) :
    stripChars (' ' :: f) = f := by
  have h := @stripChars_pad [' '] [] f
    (by intro c hc; simp at hc; subst hc; decide) (by simp) hf hfne
  simpa using h

theorem foldlM_filter_two (v : PyValue) (a b : String) :
    List.foldlM apply_filter v [a, b]
      = match apply_filter v a with
        | .error e => .error e
        | .ok v1 => apply_filter v1 b := by
  simp only [List.foldlM_cons, List.foldlM_nil]
  cases h : apply_filter v a with
  | error e => rfl
  | ok v1 =>
    show apply_filter v1 b >>= pure = apply_filter v1 b
    cases h2 : apply_filter v1 b with
    | error e => rfl
    | ok v2 => rfl

theorem resolve_pipe_two (ctx : ExecutionContext) {base f1 f2 : String} (unres : List String)
    (hb : '|' ∉ base.data) (hbs : stripChars base.data = base.data) (hbne : base.data ≠ [])
    (h1 : '|' ∉ f1.data) (h1s : stripChars f1.data = f1.data) (h1ne : f1.data ≠ [])
    (h2 : '|' ∉ f2.data) (h2s : stripChars f2.data = f2.data) (h2ne : f2.data ≠ []) :
    resolve_variable_path ctx
        ⟨base.data ++ ' ' :: '|' :: ' ' :: (f1.data ++ ' ' :: '|' :: ' ' :: f2.data)⟩ unres
      = match apply_filter (resolveBasePath ctx base unres).1 f1 with
        | .error e => .error e
        | .ok v1 =>
          match apply_filter v1 f2 with
          | .error e => .error e
          | .ok v2 => .ok (v2, (resolveBasePath ctx base unres).2) := by
  unfold resolve_variable_path
  rw [show base.data ++ ' ' :: '|' :: ' ' :: (f1.data ++ ' ' :: '|' :: ' ' :: f2.data)
      = (base.data ++ [' ']) ++ '|' :: (' ' :: (f1.data ++ ' ' :: '|' :: ' ' :: f2.data)) by simp]
  rw [pySplitOnce_eq (by
    intro hm
    rcases List.mem_append.1 hm with hx | hx
    · exact hb hx
    · simp at hx)]
  dsimp only
  have hbase : pyStrip ⟨base.data ++ [' ']⟩ = base := by
    unfold pyStrip
    rw [show (⟨base.data ++ [' ']⟩ : String).data = base.data ++ [' '] from rfl]
    rw [stripChars_trailing_space hbs hbne]
  have hcore : stripChars (f1.data ++ ' ' :: '|' :: ' ' :: f2.data)
      = f1.data ++ ' ' :: '|' :: ' ' :: f2.data := by
    apply stripChars_of_ends
    · simp [h1ne]
    · rw [headI_append h1ne]
      exact dropWhile_eq_self_head (stripChars_eq_self_parts h1s).1 h1ne
    · rw [List.reverse_append]
      rw [headI_append (by simp [h2ne])]
      rw [show (' ' :: '|' :: ' ' :: f2.data).reverse = f2.data.reverse ++ [' ', '|', ' '] by simp]
      rw [headI_append (by simpa using h2ne)]
      exact dropWhile_eq_self_head (stripChars_eq_self_parts h2s).2 (by simpa using h2ne)
  have hfe : pyStrip ⟨' ' :: (f1.data ++ ' ' :: '|' :: ' ' :: f2.data)⟩
      = ⟨f1.data ++ ' ' :: '|' :: ' ' :: f2.data⟩ := by
    unfold pyStrip
    rw [show (⟨' ' :: (f1.data ++ ' ' :: '|' :: ' ' :: f2.data)⟩ : String).data
        = ' ' :: (f1.data ++ ' ' :: '|' :: ' ' :: f2.data) from rfl]
    rw [stripChars_leading_space hcore (by simp [h1ne])]
  rw [hbase, hfe]
  unfold pySplit
  rw [show (⟨f1.data ++ ' ' :: '|' :: ' ' :: f2.data⟩ : String).data
      = (f1.data ++ [' ']) ++ '|' :: (' ' :: f2.data) by simp]
  rw [splitChars_append_sep (by
    intro hm
    rcases List.mem_append.1 hm with hx | hx
    · exact h1 hx
    · simp at hx)]
  rw [splitChars_no_sep (by
    intro hm
    rcases List.mem_cons.1 hm with hx | hx
    · simp at hx
    · exact h2 hx)]
  dsimp only [List.map, List.asString]
  rw [foldlM_filter_two]
  simp only [apply_filter_congr (show pyStrip ⟨f1.data ++ [' ']⟩ = pyStrip f1 by
    unfold pyStrip
    rw [show (⟨f1.data ++ [' ']⟩ : String).data = f1.data ++ [' '] from rfl]
    rw [stripChars_trailing_space h1s h1ne, h1s])]
  simp only [apply_filter_congr (show pyStrip ⟨' ' :: f2.data⟩ = pyStrip f2 by
    unfold pyStrip
    rw [show (⟨' ' :: f2.data⟩ : String).data = ' ' :: f2.data from rfl]
    rw [stripChars_leading_space h2s h2ne, h2s])]
  cases hA : apply_filter (resolveBasePath ctx base unres).1 f1 with
  | error e => rfl
  | ok v1 =>
    dsimp only
    cases hB : apply_filter v1 f2 with
    | error e => rfl
    | ok v2 => rfl

theorem resolve_pipe_default (ctx : ExecutionContext) {base : String} (unres : List String)
    (hb : '|' ∉ base.data) (hbs : stripChars base.data = base.data) (hbne : base.data ≠ [])
    (hdot : '.' ∉ base.data)
    (hnr : ctx.node_results.lookup base = Option.none)
    (hvr : ctx.vars.lookup base = Option.none) :
    resolve_variable_path ctx ⟨base.data ++ (" | default(\x27fb\x27)" : String).data⟩ unres
      = .ok (.str "fb", unres ++ [base]) := by
  unfold resolve_variable_path
  rw [show base.data ++ (" | default(\x27fb\x27)" : String).data
      = (base.data ++ [' ']) ++ '|' :: (" default(\x27fb\x27)" : String).data by simp]
  rw [pySplitOnce_eq (by
    intro hm
    rcases List.mem_append.1 hm with hx | hx
    · exact hb hx
    · simp at hx)]
  dsimp only
  rw [show pyStrip ⟨(" default(\x27fb\x27)" : String).data⟩ = "default(\x27fb\x27)" from rfl]
  have hbase : pyStrip ⟨base.data ++ [' ']⟩ = base := by
    unfold pyStrip
    rw [show (⟨base.data ++ [' ']⟩ : String).data = base.data ++ [' '] from rfl]
    rw [stripChars_trailing_space hbs hbne]
  rw [hbase]
  rw [resolveBasePath_unresolved ctx unres hdot hnr hvr]
  rfl

/-- C5: a configuration string that is exactly one `\x7b\x7bpath\x7d\x7d`
reference whose path resolves to a non-None value resolves to that value
with its native type preserved, while a string mixing literal text with a
reference substitutes the rendered value textually (strings verbatim,
other values serialised); concretely `\x7b\x7bx\x7d\x7d` with `x = 5`
resolves to the integer 5 and `val=\x7b\x7bx\x7d\x7d` to the string
`val=5`. -/
theorem spec_c5_native_types :
    (∀ (ctx : ExecutionContext) (p : List Char) (v : PyValue) (unres u2 : List String),
      '\x7d' ∉ p → p ≠ [] →
      resolve_variable_path ctx (pyStrip ⟨p⟩) unres = .ok (v, u2) → v ≠ .none →
      resolveValue ctx (.str ⟨'\x7b' :: '\x7b' :: (p ++ ['\x7d', '\x7d'])⟩) unres = .ok (v, u2))
    ∧ (∀ (ctx : ExecutionContext) (c : Char) (pre p : List Char) (v : PyValue)
        (unres u2 : List String),
      c ≠ '\x7b' → '\x7b' ∉ pre → '\x7d' ∉ p → p ≠ [] →
      resolve_variable_path ctx (pyStrip ⟨p⟩) unres = .ok (v, u2) → v ≠ .none →
      resolveValue ctx (.str ⟨c :: (pre ++ '\x7b' :: '\x7b' :: (p ++ ['\x7d', '\x7d']))⟩) unres
        = .ok (.str ⟨c :: (pre ++ renderChars v)⟩, u2))
    ∧ resolveValue ctxCounter (.str "\x7b\x7bx\x7d\x7d") [] = .ok (.int 5, [])
    ∧ resolveValue ctxCounter (.str "val=\x7b\x7bx\x7d\x7d") [] = .ok (.str "val=5", []) := by
  refine ⟨?_, ?_, rfl, rfl⟩
  · intro ctx p v unres u2 hp hpne hres hv
    exact resolveString_native ctx hp hpne hres hv
  · intro ctx c pre p v unres u2 hc hpre hp hpne hres hv
    exact resolveString_mixed ctx hc hpre hp hpne hres hv

/-- C5 witness: the native-type branch evaluated at the reference `x`
against the concrete context (x = 5). -/
theorem spec_c5_witness :
    resolveValue ctxCounter (.str ⟨'\x7b' :: '\x7b' :: (['x'] ++ ['\x7d', '\x7d'])⟩) []
      = .ok (.int 5, []) :=
  spec_c5_native_types.1 ctxCounter ['x'] (.int 5) [] [] (by decide) (by decide) rfl
    (fun h => PyValue.noConfusion h)

/-- C6: an unrecognised filter name passes its input through unchanged
without error; a two-filter pipeline applies the base path first, then the
filters left to right, aborting on the first filter error; concretely
`items | length` gives 3, `name | upper` gives ADA, and `s | trim | upper`
strips before upper-casing. -/
theorem spec_c6_filter_pipeline :
    (∀ (v : PyValue) (fn : String),
      pyStrip fn ≠ "length" → pyStrip fn ≠ "count" → pyStrip fn ≠ "upper" →
      pyStrip fn ≠ "lower" → pyStrip fn ≠ "trim" → pyStrip fn ≠ "strip" →
      pyStrip fn ≠ "first" → pyStrip fn ≠ "last" →
      pyStartsWith (pyStrip fn) "replace(" = false → pyStrip fn ≠ "default" →
      pyStartsWith (pyStrip fn) "default(" = false →
      apply_filter v fn = .ok v)
    ∧ (∀ (ctx : ExecutionContext) (base f1 f2 : String) (unres : List String),
      '|' ∉ base.data → stripChars base.data = base.data → base.data ≠ [] →
      '|' ∉ f1.data → stripChars f1.data = f1.data → f1.data ≠ [] →
      '|' ∉ f2.data → stripChars f2.data = f2.data → f2.data ≠ [] →
      resolve_variable_path ctx
          ⟨base.data ++ ' ' :: '|' :: ' ' :: (f1.data ++ ' ' :: '|' :: ' ' :: f2.data)⟩ unres
        = match apply_filter (resolveBasePath ctx base unres).1 f1 with
          | .error e => .error e
          | .ok v1 =>
            match apply_filter v1 f2 with
            | .error e => .error e
            | .ok v2 => .ok (v2, (resolveBasePath ctx base unres).2))
    ∧ resolve_variable_path ctxFilters "items | length" [] = .ok (.int 3, [])
    ∧ resolve_variable_path ctxFilters "name | upper" [] = .ok (.str "ADA", [])
    ∧ resolve_variable_path ctxFilters "s | trim | upper" [] = .ok (.str "HI", []) := by
  refine ⟨?_, ?_, rfl, rfl, rfl⟩
  · intro v fn hn1 hn2 hn3 hn4 hn5 hn6 hn7 hn8 hn9 hn10 hn11
    delta apply_filter
    simp [hn1, hn2, hn3, hn4, hn5, hn6, hn7, hn8, hn9, hn10, hn11]
  · intro ctx base f1 f2 unres hb hbs hbne hh1 h1s h1ne hh2 h2s h2ne
    exact resolve_pipe_two ctx unres hb hbs hbne hh1 h1s h1ne hh2 h2s h2ne

/-- C6 witness: the unknown-filter clause evaluated at the filter name
`wat`. -/
theorem spec_c6_witness : apply_filter (PyValue.int 7) "wat" = .ok (PyValue.int 7) :=
  spec_c6_filter_pipeline.1 (PyValue.int 7) "wat" (by decide) (by decide) (by decide) (by decide)
    (by decide) (by decide) (by decide) (by decide) rfl (by decide) rfl

/-- C9: a `default(...)` filter does not rescue an unresolvable base path:
the path is recorded as unresolved before the filter runs, so the reference
yields the substitute value together with the recorded path, and resolving a
configuration that contains such a reference still raises the
unresolved-variable error naming the base path. -/
theorem spec_c9_default_filter_still_fails :
    (∀ (ctx : ExecutionContext) (base : String) (unres : List String),
      '|' ∉ base.data → '.' ∉ base.data →
      stripChars base.data = base.data → base.data ≠ [] →
      ctx.node_results.lookup base = Option.none → ctx.vars.lookup base = Option.none →
      resolve_variable_path ctx ⟨base.data ++ (" | default(\x27fb\x27)" : String).data⟩ unres
        = .ok (.str "fb", unres ++ [base]))
    ∧ resolve_variables ctxCounter [("m", PyValue.str "\x7b\x7bmissing | default(\x27fb\x27)\x7d\x7d")]
        = .error (.valueError "Cannot resolve 1 variable(s): missing") := by
  refine ⟨?_, rfl⟩
  intro ctx base unres hb hdot hbs hbne hnr hvr
  exact resolve_pipe_default ctx unres hb hbs hbne hdot hnr hvr

/-- C9 witness: the default-filter clause evaluated at the unresolvable
base path `zap`. -/
theorem spec_c9_witness :
    resolve_variable_path ctxCounter
        ⟨("zap" : String).data ++ (" | default(\x27fb\x27)" : String).data⟩ []
      = .ok (.str "fb", ["zap"]) :=
  spec_c9_default_filter_still_fails.1 ctxCounter "zap" [] (by decide) (by decide) (by decide)
    (by decide) rfl rfl

/-- C10: a string that is exactly one reference resolving to `None` is
returned as the original template text; a bare single-segment path naming a
node whose stored output is `None` (a skipped node) is not recorded as
unresolved; so such a configuration resolves without error, leaving the
literal template text for the handler. -/
theorem spec_c10_none_keeps_template :
    (∀ (ctx : ExecutionContext) (p : List Char) (unres u2 : List String),
      '\x7d' ∉ p → p ≠ [] →
      resolve_variable_path ctx (pyStrip ⟨p⟩) unres = .ok (.none, u2) →
      resolveValue ctx (.str ⟨'\x7b' :: '\x7b' :: (p ++ ['\x7d', '\x7d'])⟩) unres
        = .ok (.str ⟨'\x7b' :: '\x7b' :: (p ++ ['\x7d', '\x7d'])⟩, u2))
    ∧ (∀ (ctx : ExecutionContext) (nid : String) (unres : List String),
      '|' ∉ nid.data → '.' ∉ nid.data →
      ctx.node_results.lookup nid = some PyValue.none →
      resolve_variable_path ctx nid unres = .ok (PyValue.none, unres))
    ∧ resolve_variables ctxCounter [("m", PyValue.str "\x7b\x7bp\x7d\x7d")]
        = .ok [("m", PyValue.str "\x7b\x7bp\x7d\x7d")] := by
  refine ⟨?_, ?_, rfl⟩
  · intro ctx p unres u2 hp hpne hres
    exact resolveString_none ctx hp hpne hres
  · intro ctx nid unres hpipe hdot hnr
    exact resolve_variable_path_bare ctx unres hpipe hdot hnr

/-- C10 witness: the bare-node-id clause evaluated at the skipped node `p`
of the concrete context. -/
theorem spec_c10_witness :
    resolve_variable_path ctxCounter "p" [] = .ok (PyValue.none, []) :=
  spec_c10_none_keeps_template.2.1 ctxCounter "p" [] (by decide) (by decide) rfl

/-- C4 (amended): when resolving a node configuration records one or more
unresolved paths (and no internal exception aborts resolution),
`_resolve_variables` raises a single ValueError whose message is built from
the deduplicated batch containing every recorded path, and `execute_node`
propagates that error without invoking any handler; concretely two
unresolved references are reported together in one message. -/
theorem spec_c4_unresolved_batch :
    (∀ (ctx : ExecutionContext) (config rc : List (String × PyValue)) (unres : List String),
      resolveEntries ctx config [] = .ok (rc, unres) → unres ≠ [] →
      resolve_variables ctx config = .error (.valueError (unresolvedMessage unres.dedup))
        ∧ ∀ p ∈ unres, p ∈ unres.dedup)
    ∧ (∀ (o : Oracle) (w : WorkflowDefinition) (nodeId : String) (node : WorkflowNode)
        (ctx : ExecutionContext) (m : String),
      w.get_node nodeId = some node →
      resolve_variables ctx node.config = .error (.valueError m) →
      SimpleWorkflowExecutor.execute_node o w nodeId ctx = .error (.valueError m))
    ∧ resolve_variables ctxCounter
        [("a", PyValue.str "\x7b\x7bmiss1\x7d\x7d"), ("b", PyValue.str "\x7b\x7bmiss2.k\x7d\x7d")]
      = .error (.valueError "Cannot resolve 2 variable(s): miss1, miss2.k") := by
  refine ⟨?_, ?_, rfl⟩
  · intro ctx config rc unres h hne
    constructor
    · unfold resolve_variables
      rw [h]
      dsimp only
      rw [show unres.isEmpty = false by simpa using hne]
      rfl
    · exact fun p hp => List.mem_dedup.mpr hp
  · intro o w nodeId node ctx m hget hres
    unfold SimpleWorkflowExecutor.execute_node
    rw [hget]
    dsimp only
    rw [hres]

/-- C4 witness: the batch-error clause evaluated on a configuration with
the single unresolved reference `zap`. -/
theorem spec_c4_witness :
    resolve_variables ctxCounter [("m", PyValue.str "\x7b\x7bzap\x7d\x7d")]
      = .error (.valueError (unresolvedMessage (["zap"] : List String).dedup))
    ∧ ∀ p ∈ (["zap"] : List String), p ∈ (["zap"] : List String).dedup :=
  spec_c4_unresolved_batch.1 ctxCounter [("m", PyValue.str "\x7b\x7bzap\x7d\x7d")]
    [("m", PyValue.str "\x7b\x7bzap\x7d\x7d")] ["zap"] rfl (by decide)

/-- C4 counterexample: `configMixedFailure` contains the unresolvable
reference `missing` (resolving it alone records the path), yet resolving the
whole configuration returns it unchanged — the `first` filter on a dict
raises KeyError, which the generic `except` swallows, returning the original
config — and the node’s handler is then invoked successfully, so the claimed
batched failure does not always occur. -/
theorem spec_c4_swallowed_exception_counterexample :
    resolveValue ctxCounter (.str "\x7b\x7bmissing\x7d\x7d") []
        = .ok (.str "\x7b\x7bmissing\x7d\x7d", ["missing"])
    ∧ resolve_variables ctxCounter configMixedFailure = .ok configMixedFailure
    ∧ SimpleWorkflowExecutor.execute_node trivialOracle wMixed "n" ctxCounter
        = .ok (.dict [("logged", .bool true), ("message", .str "\x7b\x7bmissing\x7d\x7d")]) :=
  ⟨rfl, rfl, rfl⟩

/-- C1 counterexample (scenario D): node `p` fails with
`on_error = continue` while the independent node `r` succeeds, and the
source reports the whole run `failed`, not `partial` as claimed — the status
aggregation checks failures before the partial case. -/
theorem spec_c1_scenario_d_counterexample :
    (SimpleWorkflowExecutor.execute trivialOracle wScenarioD []).status = "failed"
    ∧ ¬ (SimpleWorkflowExecutor.execute trivialOracle wScenarioD []).status = "partial"
    ∧ (SimpleWorkflowExecutor.execute trivialOracle wScenarioD []).node_results.lookup "p"
        = some { node_id := "p", status := "failed", output := PyValue.none,
                 error := some "Cannot resolve 1 variable(s): s.missing" }
    ∧ (SimpleWorkflowExecutor.execute trivialOracle wScenarioD []).node_results.lookup "r"
        = some { node_id := "r", status := "success",
                 output := .dict [("logged", .bool true), ("message", .str "hi")],
                 error := Option.none }
    ∧ (wScenarioD.get_node "p").map (fun n => n.on_error) = some (some "continue") := by
  refine ⟨rfl, ?_, rfl, rfl, rfl⟩
  intro h
  rw [show (SimpleWorkflowExecutor.execute trivialOracle wScenarioD []).status = "failed"
      from rfl] at h
  exact absurd h (by decide)

/-- C1 witness: the amended status characterisation evaluated on a
workflow whose validation fails (a dependency on a nonexistent node). -/
theorem spec_c1_run_status_witness :
    (SimpleWorkflowExecutor.execute trivialOracle wBadDep []).status = "failed" :=
  (spec_c1_run_status trivialOracle wBadDep []).1 rfl

/-- C7 witness: the resolution-failure clause evaluated on a node whose
condition references an unresolvable variable: the node still executes. -/
theorem spec_c7_condition_eval_witness :
    SimpleWorkflowExecutor.should_execute_node trivialOracle nodeCondMissing ctxCounter = true :=
  spec_c7_condition_eval.1 trivialOracle nodeCondMissing ctxCounter "\x7b\x7bmissing\x7d\x7d"
    (.valueError "Cannot resolve 1 variable(s): missing") rfl (by decide) rfl

/-- C2 (code bug): when the map expression of a transform node fails to
evaluate, `TransformHandler.execute` swallows the exception and returns
fabricated `transformed_item_i` mock data instead of failing, and a full run
records the node as `success` — against the spec’s requirement that
evaluation failures fail the node and that no mock data be substituted. -/
theorem spec_c2_transform_mock_data :
    transformAttempt trivialOracle
        [("input", PyValue.list [.int 1, .int 2]), ("operation", PyValue.str "map"),
         ("expression", PyValue.str "item.nonexistent_attr")]
        { vars := [], node_results := [] }
      = .error (.otherError "eval failed")
    ∧ TransformHandler.execute trivialOracle
        [("input", PyValue.list [.int 1, .int 2]), ("operation", PyValue.str "map"),
         ("expression", PyValue.str "item.nonexistent_attr")]
        { vars := [], node_results := [] }
      = .ok (.list [.str "transformed_item_0", .str "transformed_item_1"])
    ∧ (SimpleWorkflowExecutor.execute trivialOracle wTransformFail []).node_results.lookup "t"
        = some { node_id := "t", status := "success",
                 output := .list [.str "transformed_item_0", .str "transformed_item_1"],
                 error := Option.none }
    ∧ (SimpleWorkflowExecutor.execute trivialOracle wTransformFail []).status = "success" :=
  ⟨rfl, rfl, rfl, rfl⟩

/-- C8 (code bug): validation collects a warning for the unregistered
node type `mystery`, but the run result of `execute` carries no warnings at
all: `WorkflowExecutionResult` in schema.py declares no `warnings` field, so
the `warnings=` keyword `execute` passes at every construction site is
silently dropped by pydantic — the complete result record is exhibited. -/
theorem spec_c8_missing_warnings_field :
    (SimpleWorkflowExecutor.validate wWarnType).warnings
        = ["Node type \x27mystery\x27 may not be supported"]
    ∧ (SimpleWorkflowExecutor.validate wWarnType).errors = []
    ∧ SimpleWorkflowExecutor.execute trivialOracle wWarnType []
        = { status := "success",
            node_results :=
              [("m", { node_id := "m", status := "success",
                       output := .dict [("k", .int 1)], error := Option.none })],
            error := Option.none } :=
  ⟨rfl, rfl, rfl⟩
